import Mathlib

/-!
# Verification of the OpenFermion Givens-decomposition and swap-network Trotter code

This file gives a shallow embedding, in Lean 4 over exact complex/real
arithmetic, of the two Python source files

* `src/openfermion/primitives/optimal_givens_decomposition.py`
* `src/openfermion/trotter/algorithms/linear_swap_network.py`

and proves the specification claims about them.  Floating-point numbers are
modelled by exact real numbers, so every `numpy.isclose`/`numpy.allclose`
tolerance test is rendered as an exact (in)equality test; "within numerical
tolerance" in a claim becomes exact equality.

External collaborators of the two files (the `swap_network` primitive, the
`givens_matrix_elements`/`givens_rotate` helpers and the two-qubit gate set)
are code of the repository that is not among the given source files; they are
modelled from the specification, and each such definition carries a doc
comment starting with `Modelled from the spec:`.
-/

namespace OFSpec

/-! ## Part 1: the linear swap network Trotter algorithm

Embedding of `src/openfermion/trotter/algorithms/linear_swap_network.py`.
The Hamiltonian is the external `DiagonalCoulombHamiltonian` interface: a
complex one-body matrix, a real two-body matrix and a real constant, all
indexed by natural numbers (logical mode indices). -/

structure DiagonalCoulombHamiltonian where
  one_body : ℕ → ℕ → ℂ
  two_body : ℕ → ℕ → ℝ
  constant : ℝ

/-- Modelled from the spec: the gate interface consumed by the Trotter
component (two-qubit XX+YY, YX−XY and number-number rotations, their
controlled counterparts, a single-qubit Z rotation, and the fermionic/plain
swap gates emitted by the swap network).  An operation is a gate applied to
an ordered tuple of qubit handles. -/
inductive TOp (Q : Type) where
  | rxxyy (rads : ℝ) (a b : Q)
  | ryxxy (rads : ℝ) (a b : Q)
  | rot11 (rads : ℝ) (a b : Q)
  | crxxyy (rads : ℝ) (control a b : Q)
  | cryxxy (rads : ℝ) (control a b : Q)
  | rot111 (rads : ℝ) (control a b : Q)
  | rz (rads : ℝ) (q : Q)
  | fswap (a b : Q)
  | swapg (a b : Q)

variable {Q : Type}

/-- The physical positions on which a swap layer with starting parity
`start` acts: positions `k` with `k ≡ start [MOD 2]` and `k + 1 < n`
(`range(lowest_active_qubit, n - 1, 2)` in the Python source). -/
def activePositions (start n : ℕ) : List ℕ :=
  (List.range n).filter fun k => decide (k % 2 = start % 2) && decide (k + 1 < n)

/-- Modelled from the spec: one layer of the swap-network primitive.  For
each active position `k` it calls the interaction callback on the logical
indices currently occupying positions `k, k+1` and the qubit handles at those
positions, emits the swap (fermionic or plain), and transposes the two
logical indices in the order table. -/
def applyLayer [Inhabited Q] (inter : Option (ℕ → ℕ → Q → Q → List (TOp Q)))
    (fermionic : Bool) (qubits : List Q) :
    List ℕ → List ℕ → List (TOp Q) × List ℕ
  | order, [] => ([], order)
  | order, k :: ks =>
    let p := order.getD k 0
    let q := order.getD (k + 1) 0
    let a := qubits.getD k default
    let b := qubits.getD (k + 1) default
    let interOps : List (TOp Q) := match inter with
      | none => []
      | some f => f p q a b
    let swapOp : TOp Q := if fermionic then .fswap a b else .swapg a b
    let order' := (order.set k q).set (k + 1) p
    let rest := applyLayer inter fermionic qubits order' ks
    (interOps ++ swapOp :: rest.1, rest.2)

/-- Modelled from the spec: the sequence of layers of the swap network,
threading the logical-order table from layer to layer.  The starting parity
of layer `ℓ` is `(ℓ + offset) % 2`. -/
def swapNetworkLayers [Inhabited Q] (inter : Option (ℕ → ℕ → Q → Q → List (TOp Q)))
    (fermionic : Bool) (qubits : List Q) (offset : Bool) :
    List ℕ → List ℕ → List (TOp Q)
  | _, [] => []
  | order, layer :: rest =>
    let start := (layer + (if offset then 1 else 0)) % 2
    let res := applyLayer inter fermionic qubits order (activePositions start qubits.length)
    res.1 ++ swapNetworkLayers inter fermionic qubits offset res.2 rest

/-- Modelled from the spec: `openfermion.primitives.swap_network`.  Given `n`
qubit handles in linear physical order, it runs `n` layers of adjacent
transpositions, interleaving the interaction callback on every pair of
logical indices as they become physically adjacent; after the full pass every
unordered pair has been visited exactly once and the physical order of the
logical indices is reversed.  `offset` shifts which adjacency layer starts
first, and `fermionic` selects the fermionic swap gate. -/
def swap_network [Inhabited Q] (qubits : List Q)
    (interaction : Option (ℕ → ℕ → Q → Q → List (TOp Q)))
    (fermionic : Bool) (offset : Bool) : List (TOp Q) :=
  swapNetworkLayers interaction fermionic qubits offset
    (List.range qubits.length) (List.range qubits.length)

/-- The single caller-error kind of the Trotter component: the required
control qubit is absent (`TypeError` in the Python source). -/
inductive TrotterStepError where
  | missingControl

namespace SymmetricLinearSwapNetworkTrotterStep

/-- Embedding of `SymmetricLinearSwapNetworkTrotterStep.trotter_step`
(`linear_swap_network.py`, lines 56-95). -/
def trotter_step [Inhabited Q] (hamiltonian : DiagonalCoulombHamiltonian)
    (qubits : List Q) (time : ℝ) (_control_qubit : Option Q) : List (TOp Q) :=
  let n_qubits := qubits.length
  -- Apply one- and two-body interactions for half of the full time
  let one_and_two_body_interaction : ℕ → ℕ → Q → Q → List (TOp Q) := fun p q a b =>
    [ .rxxyy (0.5 * (hamiltonian.one_body p q).re * time) a b,
      .ryxxy (0.5 * (hamiltonian.one_body p q).im * time) a b,
      .rot11 (-(hamiltonian.two_body p q) * time) a b ]
  let pass1 := swap_network qubits (some one_and_two_body_interaction) true false
  let qubits' := qubits.reverse
  -- Apply one-body potential for the full time
  let potential := (List.range n_qubits).map fun i =>
    TOp.rz (-((hamiltonian.one_body i i).re) * time) (qubits'.getD i default)
  -- Apply one- and two-body interactions for half of the full time,
  -- with the operations reordered so that the entire step is symmetric
  let one_and_two_body_interaction_reverse_order : ℕ → ℕ → Q → Q → List (TOp Q) :=
    fun p q a b =>
    [ .rot11 (-(hamiltonian.two_body p q) * time) a b,
      .ryxxy (0.5 * (hamiltonian.one_body p q).im * time) a b,
      .rxxyy (0.5 * (hamiltonian.one_body p q).re * time) a b ]
  let pass2 := swap_network qubits' (some one_and_two_body_interaction_reverse_order) true true
  pass1 ++ potential ++ pass2

end SymmetricLinearSwapNetworkTrotterStep

namespace ControlledSymmetricLinearSwapNetworkTrotterStep

/-- Embedding of `ControlledSymmetricLinearSwapNetworkTrotterStep.trotter_step`
(`linear_swap_network.py`, lines 98-150).  The `isinstance(control_qubit,
cirq.Qid)` guard is modelled by the `Option` match: an absent control qubit
yields the `missingControl` error and no operations at all. -/
def trotter_step [Inhabited Q] (hamiltonian : DiagonalCoulombHamiltonian)
    (qubits : List Q) (time : ℝ) (control_qubit : Option Q) :
    Except TrotterStepError (List (TOp Q)) :=
  match control_qubit with
  | none => .error .missingControl
  | some cq =>
    let n_qubits := qubits.length
    let one_and_two_body_interaction : ℕ → ℕ → Q → Q → List (TOp Q) := fun p q a b =>
      [ .crxxyy (0.5 * (hamiltonian.one_body p q).re * time) cq a b,
        .cryxxy (0.5 * (hamiltonian.one_body p q).im * time) cq a b,
        .rot111 (-(hamiltonian.two_body p q) * time) cq a b ]
    let pass1 := swap_network qubits (some one_and_two_body_interaction) true false
    let qubits' := qubits.reverse
    let potential := (List.range n_qubits).map fun i =>
      TOp.rot11 (-((hamiltonian.one_body i i).re) * time) cq (qubits'.getD i default)
    let one_and_two_body_interaction_reverse_order : ℕ → ℕ → Q → Q → List (TOp Q) :=
      fun p q a b =>
      [ .rot111 (-(hamiltonian.two_body p q) * time) cq a b,
        .cryxxy (0.5 * (hamiltonian.one_body p q).im * time) cq a b,
        .crxxyy (0.5 * (hamiltonian.one_body p q).re * time) cq a b ]
    let pass2 := swap_network qubits' (some one_and_two_body_interaction_reverse_order) true true
    -- Apply phase from constant term
    .ok (pass1 ++ potential ++ pass2 ++ [.rz (-(hamiltonian.constant) * time) cq])

end ControlledSymmetricLinearSwapNetworkTrotterStep

namespace AsymmetricLinearSwapNetworkTrotterStep

/-- Embedding of `AsymmetricLinearSwapNetworkTrotterStep.trotter_step`
(`linear_swap_network.py`, lines 152-177). -/
def trotter_step [Inhabited Q] (hamiltonian : DiagonalCoulombHamiltonian)
    (qubits : List Q) (time : ℝ) (_control_qubit : Option Q) : List (TOp Q) :=
  let n_qubits := qubits.length
  -- Apply one- and two-body interactions for the full time
  let one_and_two_body_interaction : ℕ → ℕ → Q → Q → List (TOp Q) := fun p q a b =>
    [ .rxxyy ((hamiltonian.one_body p q).re * time) a b,
      .ryxxy ((hamiltonian.one_body p q).im * time) a b,
      .rot11 (-2 * (hamiltonian.two_body p q) * time) a b ]
  let pass1 := swap_network qubits (some one_and_two_body_interaction) true false
  let qubits' := qubits.reverse
  -- Apply one-body potential for the full time
  let potential := (List.range n_qubits).map fun i =>
    TOp.rz (-((hamiltonian.one_body i i).re) * time) (qubits'.getD i default)
  pass1 ++ potential

/-- Embedding of `AsymmetricLinearSwapNetworkTrotterStep.step_qubit_permutation`
(`linear_swap_network.py`, lines 179-185): a step reverses the qubit ordering
and the returned control qubit is `None`. -/
def step_qubit_permutation (qubits : List Q) (_control_qubit : Option Q) :
    List Q × Option Q :=
  (qubits.reverse, none)

/-- Embedding of `AsymmetricLinearSwapNetworkTrotterStep.finish`
(`linear_swap_network.py`, lines 187-195).  `n_steps & 1` on the step count is
rendered as `n_steps % 2 = 1`. -/
def finish [Inhabited Q] (qubits : List Q) (n_steps : ℕ) (_control_qubit : Option Q)
    (omit_final_swaps : Bool) : List (TOp Q) :=
  if n_steps % 2 = 1 ∧ omit_final_swaps = false then
    swap_network qubits none true false
  else []

end AsymmetricLinearSwapNetworkTrotterStep

namespace ControlledAsymmetricLinearSwapNetworkTrotterStep

/-- Embedding of `ControlledAsymmetricLinearSwapNetworkTrotterStep.trotter_step`
(`linear_swap_network.py`, lines 198-233). -/
def trotter_step [Inhabited Q] (hamiltonian : DiagonalCoulombHamiltonian)
    (qubits : List Q) (time : ℝ) (control_qubit : Option Q) :
    Except TrotterStepError (List (TOp Q)) :=
  match control_qubit with
  | none => .error .missingControl
  | some cq =>
    let n_qubits := qubits.length
    let one_and_two_body_interaction : ℕ → ℕ → Q → Q → List (TOp Q) := fun p q a b =>
      [ .crxxyy ((hamiltonian.one_body p q).re * time) cq a b,
        .cryxxy ((hamiltonian.one_body p q).im * time) cq a b,
        .rot111 (-2 * (hamiltonian.two_body p q) * time) cq a b ]
    let pass1 := swap_network qubits (some one_and_two_body_interaction) true false
    let qubits' := qubits.reverse
    let potential := (List.range n_qubits).map fun i =>
      TOp.rot11 (-((hamiltonian.one_body i i).re) * time) cq (qubits'.getD i default)
    -- Apply phase from constant term
    .ok (pass1 ++ potential ++ [.rz (-(hamiltonian.constant) * time) cq])

/-- Embedding of
`ControlledAsymmetricLinearSwapNetworkTrotterStep.step_qubit_permutation`
(`linear_swap_network.py`, lines 235-241): a step reverses the qubit ordering
and carries the control qubit through unchanged. -/
def step_qubit_permutation (qubits : List Q) (control_qubit : Option Q) :
    List Q × Option Q :=
  (qubits.reverse, control_qubit)

/-- Embedding of `ControlledAsymmetricLinearSwapNetworkTrotterStep.finish`
(`linear_swap_network.py`, lines 243-251). -/
def finish [Inhabited Q] (qubits : List Q) (n_steps : ℕ) (_control_qubit : Option Q)
    (omit_final_swaps : Bool) : List (TOp Q) :=
  if n_steps % 2 = 1 ∧ omit_final_swaps = false then
    swap_network qubits none true false
  else []

end ControlledAsymmetricLinearSwapNetworkTrotterStep

/-! ### Classification of the operations emitted by a swap-network pass -/

/-- Recognizer for single-qubit Z rotations. -/
def TOp.isRz : TOp Q → Bool
  | .rz _ _ => true
  | _ => false

lemma mem_applyLayer_fst [Inhabited Q]
    (inter : Option (ℕ → ℕ → Q → Q → List (TOp Q))) (fermionic : Bool)
    (qubits : List Q) :
    ∀ (ks order : List ℕ) (op : TOp Q),
      op ∈ (applyLayer inter fermionic qubits order ks).1 →
      (∃ f p q a b, inter = some f ∧ op ∈ f p q a b) ∨
      (∃ a b, op = if fermionic then .fswap a b else .swapg a b) := by
  intro ks
  induction ks with
  | nil => intro order op h; simp [applyLayer] at h
  | cons k ks ih =>
    intro order op h
    simp only [applyLayer, List.mem_append, List.mem_cons] at h
    rcases h with h | h | h
    · cases hi : inter with
      | none => rw [hi] at h; simp at h
      | some f =>
        rw [hi] at h
        exact Or.inl ⟨f, _, _, _, _, rfl, h⟩
    · subst h
      exact Or.inr ⟨_, _, rfl⟩
    · exact ih _ _ h

lemma mem_swapNetworkLayers [Inhabited Q]
    (inter : Option (ℕ → ℕ → Q → Q → List (TOp Q))) (fermionic : Bool)
    (qubits : List Q) (offset : Bool) :
    ∀ (layers order : List ℕ) (op : TOp Q),
      op ∈ swapNetworkLayers inter fermionic qubits offset order layers →
      (∃ f p q a b, inter = some f ∧ op ∈ f p q a b) ∨
      (∃ a b, op = if fermionic then .fswap a b else .swapg a b) := by
  intro layers
  induction layers with
  | nil => intro order op h; simp [swapNetworkLayers] at h
  | cons l ls ih =>
    intro order op h
    simp only [swapNetworkLayers, List.mem_append] at h
    rcases h with h | h
    · exact mem_applyLayer_fst inter fermionic qubits _ _ op h
    · exact ih _ op h

lemma mem_swap_network [Inhabited Q]
    (qubits : List Q) (inter : Option (ℕ → ℕ → Q → Q → List (TOp Q)))
    (fermionic : Bool) (offset : Bool) (op : TOp Q)
    (h : op ∈ swap_network qubits inter fermionic offset) :
    (∃ f p q a b, inter = some f ∧ op ∈ f p q a b) ∨
    (∃ a b, op = if fermionic then .fswap a b else .swapg a b) :=
  mem_swapNetworkLayers inter fermionic qubits offset _ _ op h

/-- No plain single-qubit Z rotation is emitted by a swap-network pass whose
callback emits none. -/
lemma countP_isRz_swap_network [Inhabited Q]
    (qubits : List Q) (inter : Option (ℕ → ℕ → Q → Q → List (TOp Q)))
    (fermionic : Bool) (offset : Bool)
    (hint : ∀ f p q a b op, inter = some f → op ∈ f p q a b → op.isRz = false) :
    (swap_network qubits inter fermionic offset).countP TOp.isRz = 0 := by
  rw [List.countP_eq_zero]
  intro op hop
  rcases mem_swap_network qubits inter fermionic offset op hop with
    ⟨f, p, q, a, b, hf, hmem⟩ | ⟨a, b, rfl⟩
  · simp [hint f p q a b op hf hmem]
  · cases fermionic <;> simp [TOp.isRz]

/-! ### Claim theorems for the Trotter component -/

/-- Claim C3: for every Hamiltonian, qubit sequence and time, calling
`trotter_step` of the Controlled-Symmetric or Controlled-Asymmetric variant
without a control qubit produces the type-mismatch error and no operations at
all: the result is the `missingControl` error, so the caller never receives a
partial operation sequence.  (In the Python source the generator raises
`TypeError` from the `isinstance(control_qubit, cirq.Qid)` guard before its
first `yield`.) -/
theorem controlled_trotter_step_requires_control [Inhabited Q]
    (hamiltonian : DiagonalCoulombHamiltonian) (qubits : List Q) (time : ℝ) :
    ControlledSymmetricLinearSwapNetworkTrotterStep.trotter_step (Q := Q)
        hamiltonian qubits time none = .error .missingControl ∧
    ControlledAsymmetricLinearSwapNetworkTrotterStep.trotter_step (Q := Q)
        hamiltonian qubits time none = .error .missingControl :=
  ⟨rfl, rfl⟩

/-- Claim C4: the Symmetric variant's `trotter_step` is exactly: a first
swap-network pass whose callback applies, for each logical pair `(p, q)` on
adjacent qubits `(a, b)`, an XX+YY rotation of angle
`0.5·Re(one_body[p,q])·time`, a YX−XY rotation of angle
`0.5·Im(one_body[p,q])·time` and a ZZ (number-number) rotation of angle
`−two_body[p,q]·time`; then one Z rotation per qubit of angle
`−Re(one_body[i,i])·time` indexed by the reversed qubit order; then a second
swap-network pass with `offset` set on the reversed qubits whose callback
applies the same three rotations in reverse sequence. -/
theorem symmetric_trotter_step_structure [Inhabited Q]
    (h : DiagonalCoulombHamiltonian) (qubits : List Q) (time : ℝ)
    (ctl : Option Q) :
    SymmetricLinearSwapNetworkTrotterStep.trotter_step h qubits time ctl =
      swap_network qubits (some fun p q a b =>
          [ TOp.rxxyy (0.5 * (h.one_body p q).re * time) a b,
            TOp.ryxxy (0.5 * (h.one_body p q).im * time) a b,
            TOp.rot11 (-(h.two_body p q) * time) a b ]) true false
      ++ (List.range qubits.length).map (fun i =>
            TOp.rz (-((h.one_body i i).re) * time) (qubits.reverse.getD i default))
      ++ swap_network qubits.reverse (some fun p q a b =>
          [ TOp.rot11 (-(h.two_body p q) * time) a b,
            TOp.ryxxy (0.5 * (h.one_body p q).im * time) a b,
            TOp.rxxyy (0.5 * (h.one_body p q).re * time) a b ]) true true := by
  simp only [SymmetricLinearSwapNetworkTrotterStep.trotter_step, List.append_assoc]

/-- Claim C5: the Asymmetric variant's `trotter_step` is exactly one
swap-network pass whose callback applies an XX+YY rotation of angle
`Re(one_body[p,q])·time` (un-halved), a YX−XY rotation of angle
`Im(one_body[p,q])·time` and a ZZ rotation of angle `−2·two_body[p,q]·time`,
followed by one Z rotation per qubit of angle `−Re(one_body[i,i])·time`
indexed by the reversed qubit order, and nothing else (in particular no
constant-term phase: see also `uncontrolled_steps_have_no_constant_phase`
for constant-independence). -/
theorem asymmetric_trotter_step_structure [Inhabited Q]
    (h : DiagonalCoulombHamiltonian) (qubits : List Q) (time : ℝ)
    (ctl : Option Q) (c' : ℝ) :
    AsymmetricLinearSwapNetworkTrotterStep.trotter_step h qubits time ctl =
      swap_network qubits (some fun p q a b =>
          [ TOp.rxxyy ((h.one_body p q).re * time) a b,
            TOp.ryxxy ((h.one_body p q).im * time) a b,
            TOp.rot11 (-2 * (h.two_body p q) * time) a b ]) true false
      ++ (List.range qubits.length).map (fun i =>
            TOp.rz (-((h.one_body i i).re) * time) (qubits.reverse.getD i default)) ∧
    AsymmetricLinearSwapNetworkTrotterStep.trotter_step { h with constant := c' }
        qubits time ctl =
      AsymmetricLinearSwapNetworkTrotterStep.trotter_step h qubits time ctl :=
  ⟨rfl, rfl⟩

/-- Claim C9: the Asymmetric variant's `step_qubit_permutation` returns the
reversed qubit sequence paired with `none` — it discards any control qubit
passed in — while the Controlled-Asymmetric variant returns the reversed
qubit sequence paired with the input control qubit unchanged. -/
theorem step_qubit_permutation_reverses (qubits : List Q) (control : Option Q) :
    AsymmetricLinearSwapNetworkTrotterStep.step_qubit_permutation qubits control =
      (qubits.reverse, none) ∧
    ControlledAsymmetricLinearSwapNetworkTrotterStep.step_qubit_permutation
        qubits control = (qubits.reverse, control) :=
  ⟨rfl, rfl⟩

/-- Claim C6: `finish` of the Asymmetric and Controlled-Asymmetric variants
yields exactly one gate-free (swap-only, fermionic) swap-network pass if and
only if the step count is odd and `omit_final_swaps` is false, and the empty
operation sequence in every other case; every operation of that corrective
pass is a fermionic swap. -/
theorem finish_corrective_pass [Inhabited Q] (qubits : List Q) (n_steps : ℕ)
    (control : Option Q) (omit_final_swaps : Bool) :
    (AsymmetricLinearSwapNetworkTrotterStep.finish qubits n_steps control
        omit_final_swaps =
      if n_steps % 2 = 1 ∧ omit_final_swaps = false then
        swap_network qubits none true false
      else []) ∧
    (ControlledAsymmetricLinearSwapNetworkTrotterStep.finish qubits n_steps control
        omit_final_swaps =
      if n_steps % 2 = 1 ∧ omit_final_swaps = false then
        swap_network qubits none true false
      else []) ∧
    (∀ op ∈ swap_network (Q := Q) qubits none true false, ∃ a b, op = .fswap a b) := by
  refine ⟨rfl, rfl, fun op hop => ?_⟩
  rcases mem_swap_network qubits none true false op hop with
    ⟨f, p, q, a, b, hf, _⟩ | ⟨a, b, rfl⟩
  · exact absurd hf (by simp)
  · exact ⟨a, b, rfl⟩

/-- Claim C8: the Controlled-Symmetric and Controlled-Asymmetric variants end
their `trotter_step` with exactly one single-qubit Z rotation, of angle
`−constant·time`, on the control qubit (it is the last emitted operation and
the only single-qubit Z rotation of the whole controlled step), while the
uncontrolled Symmetric and Asymmetric variants apply no constant-term phase at
all: their output does not depend on the Hamiltonian's constant term. -/
theorem constant_term_phase [Inhabited Q] (h : DiagonalCoulombHamiltonian)
    (qubits : List Q) (time : ℝ) (cq : Q) (ctl : Option Q) (c' : ℝ) :
    (SymmetricLinearSwapNetworkTrotterStep.trotter_step { h with constant := c' }
        qubits time ctl =
      SymmetricLinearSwapNetworkTrotterStep.trotter_step h qubits time ctl) ∧
    (AsymmetricLinearSwapNetworkTrotterStep.trotter_step { h with constant := c' }
        qubits time ctl =
      AsymmetricLinearSwapNetworkTrotterStep.trotter_step h qubits time ctl) ∧
    (∃ l, ControlledSymmetricLinearSwapNetworkTrotterStep.trotter_step h qubits
          time (some cq) = .ok l ∧
        l.getLast? = some (TOp.rz (-(h.constant) * time) cq) ∧
        l.countP TOp.isRz = 1) ∧
    (∃ l, ControlledAsymmetricLinearSwapNetworkTrotterStep.trotter_step h qubits
          time (some cq) = .ok l ∧
        l.getLast? = some (TOp.rz (-(h.constant) * time) cq) ∧
        l.countP TOp.isRz = 1) := by
  refine ⟨rfl, rfl, ⟨_, rfl, ?_, ?_⟩, ⟨_, rfl, ?_, ?_⟩⟩
  · simp [List.getLast?_append_of_ne_nil]
  · rw [List.countP_append, List.countP_append, List.countP_append,
      countP_isRz_swap_network, countP_isRz_swap_network]
    · have : ((List.range qubits.length).map fun i =>
          TOp.rot11 (-((h.one_body i i).re) * time) cq
            (qubits.reverse.getD i default)).countP TOp.isRz = 0 := by
        rw [List.countP_eq_zero]
        intro op hop
        rcases List.mem_map.1 hop with ⟨i, _, rfl⟩
        simp [TOp.isRz]
      simp [this, TOp.isRz]
    · rintro f p q a b op ⟨rfl⟩ hop
      simp only [List.mem_cons, List.not_mem_nil, or_false] at hop
      rcases hop with rfl | rfl | rfl <;> rfl
    · rintro f p q a b op ⟨rfl⟩ hop
      simp only [List.mem_cons, List.not_mem_nil, or_false] at hop
      rcases hop with rfl | rfl | rfl <;> rfl
  · simp [List.getLast?_append_of_ne_nil]
  · rw [List.countP_append, List.countP_append, countP_isRz_swap_network]
    · have : ((List.range qubits.length).map fun i =>
          TOp.rot11 (-((h.one_body i i).re) * time) cq
            (qubits.reverse.getD i default)).countP TOp.isRz = 0 := by
        rw [List.countP_eq_zero]
        intro op hop
        rcases List.mem_map.1 hop with ⟨i, _, rfl⟩
        simp [TOp.isRz]
      simp [this, TOp.isRz]
    · rintro f p q a b op ⟨rfl⟩ hop
      simp only [List.mem_cons, List.not_mem_nil, or_false] at hop
      rcases hop with rfl | rfl | rfl <;> rfl

/-! ## Part 2: the optimal Givens decomposition

Embedding of `src/openfermion/primitives/optimal_givens_decomposition.py`.
The working matrix is a function `ℕ → ℕ → ℂ`; the algorithm only ever touches
entries with both indices below `N`.  The helpers `givens_matrix_elements` and
`givens_rotate` live in `openfermion.ops._givens_rotations`, outside the given
source files, and are modelled from the specification; the elimination loop's
inline comments pin down which entry each call must zero, which fixes the
zeroing convention of the model. -/

noncomputable section

/-- `numpy.sqrt` of a nonnegative real value embedded in `ℂ`. -/
def csqrt (z : ℂ) : ℂ := ((Real.sqrt z.re : ℝ) : ℂ)

/-- `numpy.abs` of a complex number, embedded back into `ℂ`. -/
def cabs (z : ℂ) : ℂ := ((Complex.abs z : ℝ) : ℂ)

/-- A 2×2 complex matrix `[[a, b], [c, d]]`. -/
@[ext]
structure M2 where
  a : ℂ
  b : ℂ
  c : ℂ
  d : ℂ

noncomputable instance : DecidableEq M2 := fun _ _ => Classical.dec _

instance : Inhabited M2 := ⟨⟨0, 0, 0, 0⟩⟩

namespace M2

/-- Matrix product of 2×2 matrices. -/
def mul (x y : M2) : M2 :=
  ⟨x.a * y.a + x.b * y.c, x.a * y.b + x.b * y.d,
   x.c * y.a + x.d * y.c, x.c * y.b + x.d * y.d⟩

/-- Entrywise complex conjugate (`numpy .conj()`). -/
def conj (x : M2) : M2 := ⟨star x.a, star x.b, star x.c, star x.d⟩

/-- Transpose (`numpy .T`). -/
def transpose (x : M2) : M2 := ⟨x.a, x.c, x.b, x.d⟩

/-- Conjugate transpose (`numpy .conj().T`). -/
def conjT (x : M2) : M2 := ⟨star x.a, star x.c, star x.b, star x.d⟩

/-- The 2×2 identity. -/
def one : M2 := ⟨1, 0, 0, 1⟩

/-- Unitarity of a 2×2 matrix. -/
def unitary (x : M2) : Prop := x.conjT.mul x = one

end M2

/-- Modelled from the spec:
`openfermion.ops._givens_rotations.givens_matrix_elements(a, b, which='left')`
(missing from the given sources).  It computes the unique 2×2 unitary, with
real non-negative first column, that zeroes the designated component of the
vector `(a, b)`; the inline comments of the elimination loop (lines 61-63 and
75-78 of the source) require the `'left'` variant to zero the first
component, `G·(a,b)ᵀ = (0, r)ᵀ`.  Tolerance tests on `|a|`, `|b|` become
exact zero tests. -/
def givens_matrix_elements_left (x y : ℂ) : M2 :=
  if x = 0 then M2.one
  else if y = 0 then ⟨0, -1, 1, 0⟩
  else
    let n := csqrt ((cabs x) ^ 2 + (cabs y) ^ 2)
    let c := cabs y / n
    let s := cabs x / n
    let q := (x / cabs x) * star (y / cabs y)
    ⟨c, -(s * q), s, c * q⟩

/-- Modelled from the spec: `givens_matrix_elements(a, b, which='right')`,
the variant that zeroes the second component, `G·(a,b)ᵀ = (r, 0)ᵀ`, again
with real non-negative first column. -/
def givens_matrix_elements_right (x y : ℂ) : M2 :=
  if y = 0 then M2.one
  else if x = 0 then ⟨0, 1, 1, 0⟩
  else
    let n := csqrt ((cabs x) ^ 2 + (cabs y) ^ 2)
    let c := cabs x / n
    let s := cabs y / n
    let q := (x / cabs x) * star (y / cabs y)
    ⟨c, s * q, s, -(c * q)⟩

/-- The working matrix type of the decomposition. -/
def CMat : Type := ℕ → ℕ → ℂ

/-- Modelled from the spec: `givens_rotate(·, g, r1, r2, which='row')`:
replace rows `r1, r2` by their mix through `g` (left multiplication by the
plane rotation). -/
def givens_rotate_row (g : M2) (r1 r2 : ℕ) (M : CMat) : CMat := fun r c =>
  if r = r1 then g.a * M r1 c + g.b * M r2 c
  else if r = r2 then g.c * M r1 c + g.d * M r2 c
  else M r c

/-- Modelled from the spec: `givens_rotate(·, g, c1, c2, which='col')`:
replace columns `c1, c2` by their mix through the entrywise conjugate of `g`
(so the call with `g.conj()` made by the elimination loop right-multiplies by
the transpose of `g`, which is what makes the commented target entry vanish). -/
def givens_rotate_col (g : M2) (c1 c2 : ℕ) (M : CMat) : CMat := fun r c =>
  if c = c1 then star g.a * M r c1 + star g.b * M r c2
  else if c = c2 then star g.c * M r c1 + star g.d * M r c2
  else M r c

/-- One elementary elimination of the two-pass schedule: `colStep r C` zeroes
entry `(r, C)` by mixing columns `(C, C+1)` (odd outer iteration, recorded as
a right rotation); `rowStep R c` zeroes entry `(R, c)` by mixing rows
`(R-1, R)` (even outer iteration, recorded as a left rotation). -/
inductive ElimStep where
  | colStep (r C : ℕ)
  | rowStep (R c : ℕ)

/-- The elimination schedule of `optimal_givens_decomposition`
(source lines 58-87): for `i = 1, …, N-1`, if `i` is odd the inner loop
`j = 0, …, i-1` zeroes `(N-j-1, i-j-1)` through adjacent columns, and if `i`
is even the inner loop (`j = 1, …, i` in the source, here shifted to
`j = 0, …, i-1`) zeroes `(N+j-i, j)` through adjacent rows.
The inner loop of an odd outer iteration: -/
def colBlock (N i : ℕ) : List ElimStep :=
  (List.range i).map fun j => ElimStep.colStep (N - j - 1) (i - j - 1)

/-- The inner loop of an even outer iteration (the source's `j = 1, …, i`
shifted to `j = 0, …, i-1`). -/
def rowBlock (N i : ℕ) : List ElimStep :=
  (List.range i).map fun j => ElimStep.rowStep (N + j - i) j

def elimSeq (N : ℕ) : List ElimStep :=
  (List.range (N - 1)).flatMap fun i0 =>
    let i := i0 + 1
    if i % 2 = 1 then colBlock N i else rowBlock N i

/-- The state of the elimination loop: the working matrix and the recorded
right/left rotation lists (each rotation tagged with its index pair). -/
structure ElimState where
  M : CMat
  rights : List (M2 × ℕ × ℕ)
  lefts : List (M2 × ℕ × ℕ)

/-- One step of the elimination loop (source lines 58-87): compute the
Givens matrix from the two relevant entries, record it and rotate the
matrix in place. -/
def elimStepApply (st : ElimState) : ElimStep → ElimState
  | .colStep r C =>
    let gmat := givens_matrix_elements_left (st.M r C) (st.M r (C + 1))
    { M := givens_rotate_col gmat.conj C (C + 1) st.M,
      rights := st.rights ++ [(gmat.transpose, C, C + 1)],
      lefts := st.lefts }
  | .rowStep R c =>
    let gmat := givens_matrix_elements_right (st.M (R - 1) c) (st.M R c)
    { M := givens_rotate_row gmat (R - 1) R st.M,
      rights := st.rights,
      lefts := st.lefts ++ [(gmat, R - 1, R)] }

/-- The full elimination pass. -/
def elimRun (N : ℕ) (U0 : CMat) : ElimState :=
  (elimSeq N).foldl elimStepApply ⟨U0, [], []⟩

/-- The two internal failure kinds of the decomposition
(`GivensTranspositionError` and `GivensMatrixError`). -/
inductive GivensError where
  | transposition
  | matrixConvention

/-- The state of the phase-migration loop: the diagonal phases of the working
matrix and the accumulated re-decomposed left rotations. -/
structure MigState where
  d : ℕ → ℂ
  newLefts : List (M2 × ℕ × ℕ)

/-- One phase-migration step (source lines 89-108): decompose
`rotation† · diag(phase_i, phase_j)` into a new Givens rotation times an
updated phase pair, numerically checking
`new_phase_matrix · new_givens_matrix.conj() = matrix_to_decompose`
(`numpy.allclose` rendered exactly) and raising `GivensTranspositionError`
when the check fails. -/
def migStep (st : MigState) (rot : M2 × ℕ × ℕ) : Except GivensError MigState :=
  let i := rot.2.1
  let j := rot.2.2
  let matrix_to_decompose := rot.1.conjT.mul ⟨st.d i, 0, 0, st.d j⟩
  let new_givens_matrix :=
    givens_matrix_elements_left matrix_to_decompose.c matrix_to_decompose.d
  let new_phase_matrix := matrix_to_decompose.mul new_givens_matrix.transpose
  if new_phase_matrix.mul new_givens_matrix.conj = matrix_to_decompose then
    .ok { d := Function.update (Function.update st.d i new_phase_matrix.a) j
            new_phase_matrix.d,
          newLefts := st.newLefts ++ [(new_givens_matrix.conj, i, j)] }
  else .error .transposition

/-- The phase-migration loop: walk the recorded left rotations in reverse. -/
def migRun (lefts : List (M2 × ℕ × ℕ)) (d0 : ℕ → ℂ) : Except GivensError MigState :=
  lefts.reverse.foldlM migStep ⟨d0, []⟩

/-- The unchecked form of one migration step. -/
def migStepU (st : MigState) (rot : M2 × ℕ × ℕ) : MigState :=
  let matrix_to_decompose := rot.1.conjT.mul ⟨st.d rot.2.1, 0, 0, st.d rot.2.2⟩
  let new_givens_matrix :=
    givens_matrix_elements_left matrix_to_decompose.c matrix_to_decompose.d
  let new_phase_matrix := matrix_to_decompose.mul new_givens_matrix.transpose
  { d := Function.update (Function.update st.d rot.2.1 new_phase_matrix.a)
      rot.2.2 new_phase_matrix.d,
    newLefts := st.newLefts ++ [(new_givens_matrix.conj, rot.2.1, rot.2.2)] }

/-- The migration loop without the consistency checks. -/
def migRunU (lefts : List (M2 × ℕ × ℕ)) (d0 : ℕ → ℂ) : MigState :=
  lefts.reverse.foldl migStepU ⟨d0, []⟩

/-- The triple `(matrix_to_decompose, new_givens_matrix, new_phase_matrix)`
produced by one migration step. -/
def migTriple (st : MigState) (rot : M2 × ℕ × ℕ) : M2 × M2 × M2 :=
  let matrix_to_decompose := rot.1.conjT.mul ⟨st.d rot.2.1, 0, 0, st.d rot.2.2⟩
  let new_givens_matrix :=
    givens_matrix_elements_left matrix_to_decompose.c matrix_to_decompose.d
  (matrix_to_decompose, new_givens_matrix,
    matrix_to_decompose.mul new_givens_matrix.transpose)

/-- The list of migration triples along the run, in processing order. -/
def migTrace (lefts : List (M2 × ℕ × ℕ)) (d0 : ℕ → ℂ) : List (M2 × M2 × M2) :=
  (lefts.reverse.foldl
    (fun p rot => (migStepU p.1 rot, p.2 ++ [migTriple p.1 rot]))
    ((⟨d0, []⟩ : MigState), ([] : List (M2 × M2 × M2)))).2

/-- The merged, ordered rotation list (source lines 113-115): reversed
migrated left rotations, then the reversed right rotations with each matrix
conjugate-transposed. -/
def mergedRotations (newLefts rights : List (M2 × ℕ × ℕ)) : List (M2 × ℕ × ℕ) :=
  newLefts.reverse ++ rights.reverse.map fun x => (x.1.conjT, x.2)

/-- The emission parameters of one merged rotation (source lines 129-131):
`theta = arcsin(Re g[1,0])` and `phi = angle(g[1,1])`. -/
structure RotParam where
  i : ℕ
  j : ℕ
  theta : ℝ
  phi : ℝ

/-- Extract the emission parameters of a merged rotation. -/
def rotParam (r : M2 × ℕ × ℕ) : RotParam :=
  ⟨r.2.1, r.2.2, Real.arcsin r.1.c.re, Complex.arg r.1.d⟩

/-- The convention-check-and-parameterize loop (source lines 113-131): each
merged rotation must have an exactly real first column (`numpy.isclose` on
the imaginary parts of `g[0,0]` and `g[1,0]`, rendered exactly), else
`GivensMatrixError` is raised; the surviving rotations yield their angles. -/
def checkConvention : List (M2 × ℕ × ℕ) → Except GivensError (List RotParam)
  | [] => .ok []
  | r :: rs =>
    if r.1.a.im = 0 then
      if r.1.c.im = 0 then
        match checkConvention rs with
        | .ok ps => .ok (rotParam r :: ps)
        | .error e => .error e
      else .error .matrixConvention
    else .error .matrixConvention

/-- The operations yielded by the decomposition: `cirq.Z(q)**t`
(a Z phase by exponent `t`, i.e. `diag(1, exp(iπt))` on qubit `q`) and the
two-qubit `Ryxxy(rads)` rotation. -/
inductive GOp (Q : Type) where
  | zpow (t : ℝ) (q : Q)
  | ryxxy (rads : ℝ) (i j : Q)

/-- Recognizer for `Ryxxy` operations. -/
def GOp.isRyxxy {Q : Type} : GOp Q → Bool
  | .ryxxy _ _ _ => true
  | _ => false

/-- Recognizer for Z-phase operations. -/
def GOp.isZpow {Q : Type} : GOp Q → Bool
  | .zpow _ _ => true
  | _ => false

/-- The two operations emitted for one rotation (source lines 133-138): the
`phi` Z phase on the second qubit (skipped when `phi` is exactly zero,
rendering `numpy.isclose(phi, 0.0)`), then `Ryxxy(-theta)` on the pair. -/
def emitRotation {Q : Type} (qubits : ℕ → Q) (r : RotParam) : List (GOp Q) :=
  (if r.phi = 0 then [] else [GOp.zpow (r.phi / Real.pi) (qubits r.j)])
  ++ [GOp.ryxxy (-r.theta) (qubits r.i) (qubits r.j)]

/-- Embedding of `optimal_givens_decomposition`
(`optimal_givens_decomposition.py`, lines 37-141).  Qubits are handles
indexed by position; the result is the full emitted operation list, or the
first internal error.  Since the source is a Python generator whose body runs
up to the first `yield` only on demand, all internal checks precede every
emitted operation; the `Except` result reflects that an error yields no
operations at all. -/
def optimal_givens_decomposition {Q : Type} (qubits : ℕ → Q) (N : ℕ)
    (U0 : CMat) : Except GivensError (List (GOp Q)) := do
  let st := elimRun N U0
  let mig ← migRun st.lefts fun idx => st.M idx idx
  let rots ← checkConvention (mergedRotations mig.newLefts st.rights)
  return rots.reverse.flatMap (emitRotation qubits)
    ++ (List.range N).map fun idx =>
        GOp.zpow (Complex.arg (mig.d idx) / Real.pi) (qubits idx)

/-! ### 2×2 matrix algebra -/

namespace M2

lemma mul_assoc' (x y z : M2) : (x.mul y).mul z = x.mul (y.mul z) := by
  ext <;> simp [mul] <;> ring

lemma mul_one' (x : M2) : x.mul one = x := by
  ext <;> simp [mul, one]

lemma one_mul' (x : M2) : one.mul x = x := by
  ext <;> simp [mul, one]

lemma transpose_mul (x y : M2) : (x.mul y).transpose = y.transpose.mul x.transpose := by
  ext <;> simp [mul, transpose] <;> ring

lemma transpose_one : (one : M2).transpose = one := rfl

lemma conjT_transpose (x : M2) : x.conjT.transpose = x.conj := rfl

lemma conj_conjT (x : M2) : x.conj.conjT = x.transpose := by
  ext <;> simp [conj, conjT, transpose]

/-- For a unitary `g`, `gᵀ · ḡ = 1` (the form in which unitarity cancels the
transpose-conjugate product appearing in the migration check). -/
lemma transpose_mul_conj_of_unitary {x : M2} (h : x.unitary) :
    x.transpose.mul x.conj = one := by
  have := congrArg M2.transpose h
  rw [transpose_mul, conjT_transpose, transpose_one] at this
  exact this

/-- The entrywise conjugate of a unitary matrix is unitary. -/
lemma conj_unitary {x : M2} (h : x.unitary) : x.conj.unitary := by
  unfold unitary at h ⊢
  rw [conj_conjT]
  have := congrArg M2.conj h
  have hc : (x.conjT.mul x).conj = x.transpose.mul x.conj := by
    ext <;> simp [mul, conj, conjT, transpose]
  rw [hc] at this
  have ho : (one : M2).conj = one := by ext <;> simp [conj, one]
  rw [ho] at this
  calc x.transpose.mul x.conj = one := this

end M2

/-! ### Properties of the modelled `givens_matrix_elements` -/

/-- For nonzero `z`, the unit phase `z/|z|` times its conjugate is `1`. -/
lemma sgn_mul_star_sgn (z : ℂ) (hz : z ≠ 0) :
    (z / cabs z) * star (z / cabs z) = 1 := by
  have ha : ((Complex.abs z : ℝ) : ℂ) ≠ 0 := by
    simpa using hz
  simp only [cabs]
  rw [Complex.star_def, map_div₀, Complex.conj_ofReal, div_mul_div_comm,
    Complex.mul_conj, Complex.normSq_eq_abs]
  push_cast
  rw [sq, div_self (mul_ne_zero ha ha)]

/-- For nonzero `z`, conjugate of the unit phase of `z` times `z` is `|z|`. -/
lemma star_sgn_mul_self (z : ℂ) (hz : z ≠ 0) :
    star (z / cabs z) * z = cabs z := by
  have ha : Complex.abs z ≠ 0 := by
    simpa using hz
  have ha' : (cabs z : ℂ) ≠ 0 := by
    simpa [cabs] using ha
  simp only [cabs] at ha' ⊢
  rw [Complex.star_def, map_div₀, Complex.conj_ofReal, div_mul_eq_mul_div,
    mul_comm, Complex.mul_conj, Complex.normSq_eq_abs]
  push_cast
  field_simp
  ring

/-- The canonical shape of a `'left'` Givens matrix: real non-negative
first column `(c, s)` with `c² + s² = 1` and a unit phase on the second
column. -/
lemma gme_left_shape (x y : ℂ) :
    ∃ (cr sr : ℝ) (q : ℂ), 0 ≤ cr ∧ 0 ≤ sr ∧ cr ^ 2 + sr ^ 2 = 1 ∧
      q * star q = 1 ∧
      givens_matrix_elements_left x y =
        ⟨(cr : ℂ), -((sr : ℂ) * q), (sr : ℂ), (cr : ℂ) * q⟩ := by
  unfold givens_matrix_elements_left
  by_cases hx : x = 0
  · refine ⟨1, 0, 1, by norm_num, le_refl 0, by norm_num, by norm_num, ?_⟩
    rw [if_pos hx]
    ext <;> simp [M2.one]
  by_cases hy : y = 0
  · refine ⟨0, 1, 1, le_refl 0, by norm_num, by norm_num, by norm_num, ?_⟩
    rw [if_neg hx, if_pos hy]
    ext <;> simp
  have hax : (0 : ℝ) < Complex.abs x := by
    simpa [AbsoluteValue.pos_iff] using hx
  have hay : (0 : ℝ) < Complex.abs y := by
    simpa [AbsoluteValue.pos_iff] using hy
  set S : ℝ := Complex.abs x ^ 2 + Complex.abs y ^ 2 with hS
  have hSpos : 0 < S := by positivity
  have hsq : Real.sqrt S ^ 2 = S := Real.sq_sqrt hSpos.le
  have hsqrtpos : 0 < Real.sqrt S := Real.sqrt_pos.mpr hSpos
  have hn : csqrt ((cabs x) ^ 2 + (cabs y) ^ 2) = ((Real.sqrt S : ℝ) : ℂ) := by
    simp only [csqrt, cabs]
    norm_cast
  refine ⟨Complex.abs y / Real.sqrt S, Complex.abs x / Real.sqrt S,
    (x / cabs x) * star (y / cabs y), by positivity, by positivity, ?_, ?_, ?_⟩
  · rw [div_pow, div_pow, div_add_div_same, Real.sq_sqrt hSpos.le,
      add_comm (Complex.abs y ^ 2), ← hS, div_self hSpos.ne']
  · have h1 := sgn_mul_star_sgn x hx
    have h2 := sgn_mul_star_sgn y hy
    calc (x / cabs x * star (y / cabs y)) * star (x / cabs x * star (y / cabs y))
        = ((x / cabs x) * star (x / cabs x)) * ((y / cabs y) * star (y / cabs y)) := by
          rw [star_mul', star_star]; ring
      _ = 1 := by rw [h1, h2, one_mul]
  · rw [if_neg hx, if_neg hy]
    simp only [hn]
    simp only [cabs]
    ext <;> push_cast <;> ring

/-- The canonical shape of a `'right'` Givens matrix. -/
lemma gme_right_shape (x y : ℂ) :
    ∃ (cr sr : ℝ) (q : ℂ), 0 ≤ cr ∧ 0 ≤ sr ∧ cr ^ 2 + sr ^ 2 = 1 ∧
      q * star q = 1 ∧
      givens_matrix_elements_right x y =
        ⟨(cr : ℂ), (sr : ℂ) * q, (sr : ℂ), -((cr : ℂ) * q)⟩ := by
  unfold givens_matrix_elements_right
  by_cases hy : y = 0
  · refine ⟨1, 0, -1, by norm_num, le_refl 0, by norm_num, by simp, ?_⟩
    rw [if_pos hy]
    ext <;> simp [M2.one]
  by_cases hx : x = 0
  · refine ⟨0, 1, 1, le_refl 0, by norm_num, by norm_num, by norm_num, ?_⟩
    rw [if_neg hy, if_pos hx]
    ext <;> simp
  have hax : (0 : ℝ) < Complex.abs x := by
    simpa [AbsoluteValue.pos_iff] using hx
  have hay : (0 : ℝ) < Complex.abs y := by
    simpa [AbsoluteValue.pos_iff] using hy
  set S : ℝ := Complex.abs x ^ 2 + Complex.abs y ^ 2 with hS
  have hSpos : 0 < S := by positivity
  have hn : csqrt ((cabs x) ^ 2 + (cabs y) ^ 2) = ((Real.sqrt S : ℝ) : ℂ) := by
    simp only [csqrt, cabs]
    norm_cast
  refine ⟨Complex.abs x / Real.sqrt S, Complex.abs y / Real.sqrt S,
    (x / cabs x) * star (y / cabs y), by positivity, by positivity, ?_, ?_, ?_⟩
  · rw [div_pow, div_pow, div_add_div_same, Real.sq_sqrt hSpos.le, ← hS,
      div_self hSpos.ne']
  · have h1 := sgn_mul_star_sgn x hx
    have h2 := sgn_mul_star_sgn y hy
    calc (x / cabs x * star (y / cabs y)) * star (x / cabs x * star (y / cabs y))
        = ((x / cabs x) * star (x / cabs x)) * ((y / cabs y) * star (y / cabs y)) := by
          rw [star_mul', star_star]; ring
      _ = 1 := by rw [h1, h2, one_mul]
  · rw [if_neg hy, if_neg hx]
    simp only [hn]
    simp only [cabs]
    ext <;> push_cast <;> ring

/-- Any matrix of the canonical left shape is unitary. -/
lemma template_left_unitary (cr sr : ℝ) (q : ℂ) (hcs : cr ^ 2 + sr ^ 2 = 1)
    (hq : q * star q = 1) :
    (M2.mk (cr : ℂ) (-((sr : ℂ) * q)) (sr : ℂ) ((cr : ℂ) * q)).unitary := by
  rw [Complex.star_def] at hq
  have hcs' : ((cr : ℂ)) ^ 2 + ((sr : ℂ)) ^ 2 = 1 := by exact_mod_cast hcs
  unfold M2.unitary M2.conjT M2.mul M2.one
  ext <;> simp only [Complex.star_def, map_neg, map_mul, Complex.conj_ofReal]
  · linear_combination hcs'
  · ring
  · ring
  · linear_combination ((cr : ℂ) ^ 2 + (sr : ℂ) ^ 2) * hq + hcs'

/-- Any matrix of the canonical right shape is unitary. -/
lemma template_right_unitary (cr sr : ℝ) (q : ℂ) (hcs : cr ^ 2 + sr ^ 2 = 1)
    (hq : q * star q = 1) :
    (M2.mk (cr : ℂ) ((sr : ℂ) * q) (sr : ℂ) (-((cr : ℂ) * q))).unitary := by
  rw [Complex.star_def] at hq
  have hcs' : ((cr : ℂ)) ^ 2 + ((sr : ℂ)) ^ 2 = 1 := by exact_mod_cast hcs
  unfold M2.unitary M2.conjT M2.mul M2.one
  ext <;> simp only [Complex.star_def, map_neg, map_mul, Complex.conj_ofReal]
  · linear_combination hcs'
  · ring
  · ring
  · linear_combination ((cr : ℂ) ^ 2 + (sr : ℂ) ^ 2) * hq + hcs'

/-- The modelled `'left'` Givens matrix is unitary for every input. -/
lemma gme_left_unitary (x y : ℂ) : (givens_matrix_elements_left x y).unitary := by
  obtain ⟨cr, sr, q, _, _, hcs, hq, hshape⟩ := gme_left_shape x y
  rw [hshape]
  exact template_left_unitary cr sr q hcs hq

/-- The modelled `'right'` Givens matrix is unitary for every input. -/
lemma gme_right_unitary (x y : ℂ) : (givens_matrix_elements_right x y).unitary := by
  obtain ⟨cr, sr, q, _, _, hcs, hq, hshape⟩ := gme_right_shape x y
  rw [hshape]
  exact template_right_unitary cr sr q hcs hq

/-- The `'left'` Givens matrix zeroes the first component of `(x, y)`. -/
lemma gme_left_zeroes (x y : ℂ) :
    (givens_matrix_elements_left x y).a * x +
      (givens_matrix_elements_left x y).b * y = 0 := by
  unfold givens_matrix_elements_left
  by_cases hx : x = 0
  · rw [if_pos hx, hx]
    simp [M2.one]
  by_cases hy : y = 0
  · rw [if_neg hx, if_pos hy, hy]
    simp
  rw [if_neg hx, if_neg hy]
  have hxC : (cabs x : ℂ) ≠ 0 := by simpa [cabs] using hx
  have hsy := star_sgn_mul_self y hy
  simp only
  set n := csqrt ((cabs x) ^ 2 + (cabs y) ^ 2) with hn
  have key : cabs x / n * (x / cabs x * star (y / cabs y)) * y
      = cabs y / n * x := by
    calc cabs x / n * (x / cabs x * star (y / cabs y)) * y
        = (x / cabs x * cabs x) * (star (y / cabs y) * y) / n := by ring
      _ = x * cabs y / n := by rw [div_mul_cancel₀ x hxC, hsy]
      _ = cabs y / n * x := by ring
  linear_combination -key

/-- The `'right'` Givens matrix zeroes the second component of `(x, y)`. -/
lemma gme_right_zeroes (x y : ℂ) :
    (givens_matrix_elements_right x y).c * x +
      (givens_matrix_elements_right x y).d * y = 0 := by
  unfold givens_matrix_elements_right
  by_cases hy : y = 0
  · rw [if_pos hy, hy]
    simp [M2.one]
  by_cases hx : x = 0
  · rw [if_neg hy, if_pos hx, hx]
    simp
  rw [if_neg hy, if_neg hx]
  have hxC : (cabs x : ℂ) ≠ 0 := by simpa [cabs] using hx
  have hsy := star_sgn_mul_self y hy
  simp only
  set n := csqrt ((cabs x) ^ 2 + (cabs y) ^ 2) with hn
  have key : cabs x / n * (x / cabs x * star (y / cabs y)) * y
      = cabs y / n * x := by
    calc cabs x / n * (x / cabs x * star (y / cabs y)) * y
        = (x / cabs x * cabs x) * (star (y / cabs y) * y) / n := by ring
      _ = x * cabs y / n := by rw [div_mul_cancel₀ x hxC, hsy]
      _ = cabs y / n * x := by ring
  linear_combination -key

/-- For every unitary `g`, the migration consistency check holds exactly. -/
lemma mig_check_holds (Mtd g : M2) (hg : g.unitary) :
    (Mtd.mul g.transpose).mul g.conj = Mtd := by
  rw [M2.mul_assoc', M2.transpose_mul_conj_of_unitary hg, M2.mul_one']

/-- One migration step never raises: it is the unchecked step. -/
lemma migStep_eq_ok (st : MigState) (rot : M2 × ℕ × ℕ) :
    migStep st rot = .ok (migStepU st rot) := by
  unfold migStep migStepU
  rw [if_pos (mig_check_holds _ _ (gme_left_unitary _ _))]

/-- The checked migration loop never raises. -/
lemma migRun_eq_ok (lefts : List (M2 × ℕ × ℕ)) (d0 : ℕ → ℂ) :
    migRun lefts d0 = .ok (migRunU lefts d0) := by
  unfold migRun migRunU
  generalize (⟨d0, []⟩ : MigState) = st
  generalize lefts.reverse = l
  induction l generalizing st with
  | nil => rfl
  | cons r rs ih =>
    rw [List.foldlM_cons, migStep_eq_ok, List.foldl_cons]
    exact ih (migStepU st r)

/-- Every triple recorded along the migration satisfies the checked
identity `new_phase_matrix · new_givens_matrix.conj = matrix_to_decompose`. -/
lemma migTrace_identity (lefts : List (M2 × ℕ × ℕ)) (d0 : ℕ → ℂ) :
    ∀ t ∈ migTrace lefts d0, t.2.2.mul t.2.1.conj = t.1 := by
  unfold migTrace
  suffices h : ∀ (l : List (M2 × ℕ × ℕ)) (p : MigState × List (M2 × M2 × M2)),
      (∀ t ∈ p.2, t.2.2.mul t.2.1.conj = t.1) →
      ∀ t ∈ (l.foldl
        (fun p rot => (migStepU p.1 rot, p.2 ++ [migTriple p.1 rot])) p).2,
        t.2.2.mul t.2.1.conj = t.1 by
    exact h lefts.reverse _ (by simp)
  intro l
  induction l with
  | nil => intro p hp; exact hp
  | cons r rs ih =>
    intro p hp
    rw [List.foldl_cons]
    refine ih _ ?_
    intro t ht
    rcases List.mem_append.1 ht with ht | ht
    · exact hp t ht
    · rcases List.mem_singleton.1 ht with rfl
      exact mig_check_holds _ _ (gme_left_unitary _ _)

/-! ### Provenance of the recorded rotations -/

/-- Every recorded right rotation is the transpose of a `'left'` Givens
matrix; every recorded left rotation is a `'right'` Givens matrix. -/
lemma elimRun_provenance (N : ℕ) (U0 : CMat) :
    (∀ r ∈ (elimRun N U0).rights, ∃ x y,
        r.1 = (givens_matrix_elements_left x y).transpose) ∧
    (∀ r ∈ (elimRun N U0).lefts, ∃ x y,
        r.1 = givens_matrix_elements_right x y) := by
  unfold elimRun
  generalize elimSeq N = steps
  suffices h : ∀ (l : List ElimStep) (st : ElimState),
      (∀ r ∈ st.rights, ∃ x y, r.1 = (givens_matrix_elements_left x y).transpose) →
      (∀ r ∈ st.lefts, ∃ x y, r.1 = givens_matrix_elements_right x y) →
      (∀ r ∈ (l.foldl elimStepApply st).rights, ∃ x y,
          r.1 = (givens_matrix_elements_left x y).transpose) ∧
      (∀ r ∈ (l.foldl elimStepApply st).lefts, ∃ x y,
          r.1 = givens_matrix_elements_right x y) by
    exact h steps ⟨U0, [], []⟩ (by simp) (by simp)
  intro l
  induction l with
  | nil => intro st h1 h2; exact ⟨h1, h2⟩
  | cons s ss ih =>
    intro st h1 h2
    rw [List.foldl_cons]
    cases s with
    | colStep r C =>
      refine ih _ ?_ ?_
      · intro rr hrr
        simp only [elimStepApply, List.mem_append] at hrr
        rcases hrr with h | h
        · exact h1 rr h
        · rcases List.mem_singleton.1 h with rfl
          exact ⟨_, _, rfl⟩
      · intro rr hrr
        simp only [elimStepApply] at hrr
        exact h2 rr hrr
    | rowStep R c =>
      refine ih _ ?_ ?_
      · intro rr hrr
        simp only [elimStepApply] at hrr
        exact h1 rr hrr
      · intro rr hrr
        simp only [elimStepApply, List.mem_append] at hrr
        rcases hrr with h | h
        · exact h2 rr h
        · rcases List.mem_singleton.1 h with rfl
          exact ⟨_, _, rfl⟩

/-- Every migrated left rotation is the conjugate of a `'left'` Givens
matrix. -/
lemma migRunU_provenance (lefts : List (M2 × ℕ × ℕ)) (d0 : ℕ → ℂ) :
    ∀ r ∈ (migRunU lefts d0).newLefts, ∃ x y,
      r.1 = (givens_matrix_elements_left x y).conj := by
  unfold migRunU
  suffices h : ∀ (l : List (M2 × ℕ × ℕ)) (st : MigState),
      (∀ r ∈ st.newLefts, ∃ x y, r.1 = (givens_matrix_elements_left x y).conj) →
      ∀ r ∈ (l.foldl migStepU st).newLefts, ∃ x y,
        r.1 = (givens_matrix_elements_left x y).conj by
    exact h lefts.reverse ⟨d0, []⟩ (by simp)
  intro l
  induction l with
  | nil => intro st h; exact h
  | cons s ss ih =>
    intro st h
    rw [List.foldl_cons]
    refine ih _ ?_
    intro rr hrr
    simp only [migStepU, List.mem_append] at hrr
    rcases hrr with hmem | hmem
    · exact h rr hmem
    · rcases List.mem_singleton.1 hmem with rfl
      exact ⟨_, _, rfl⟩

/-- The first column of the conjugate of a `'left'` Givens matrix is exactly
real and non-negative. -/
lemma gme_left_conj_first_col (x y : ℂ) :
    ((givens_matrix_elements_left x y).conj.a.im = 0 ∧
      0 ≤ (givens_matrix_elements_left x y).conj.a.re) ∧
    (givens_matrix_elements_left x y).conj.c.im = 0 ∧
      0 ≤ (givens_matrix_elements_left x y).conj.c.re := by
  obtain ⟨cr, sr, q, hc, hs, _, _, hshape⟩ := gme_left_shape x y
  rw [hshape]
  simp only [M2.conj, Complex.star_def, Complex.conj_ofReal]
  simp [hc, hs]

/-- The transpose of a matrix, conjugate-transposed, is its conjugate. -/
lemma transpose_conjT (g : M2) : g.transpose.conjT = g.conj := rfl

/-- Every merged rotation of the pipeline has an exactly real, non-negative
first column. -/
lemma merged_first_col (N : ℕ) (U0 : CMat) :
    ∀ r ∈ mergedRotations
        (migRunU (elimRun N U0).lefts fun k => (elimRun N U0).M k k).newLefts
        (elimRun N U0).rights,
      (r.1.a.im = 0 ∧ 0 ≤ r.1.a.re) ∧ (r.1.c.im = 0 ∧ 0 ≤ r.1.c.re) := by
  intro r hr
  unfold mergedRotations at hr
  rcases List.mem_append.1 hr with h | h
  · have hm := List.mem_reverse.1 h
    obtain ⟨x, y, hxy⟩ := migRunU_provenance _ _ r hm
    obtain ⟨⟨h1, h2⟩, h3, h4⟩ := gme_left_conj_first_col x y
    rw [hxy]
    exact ⟨⟨h1, h2⟩, h3, h4⟩
  · rcases List.mem_map.1 h with ⟨r0, hr0, rfl⟩
    have hm := List.mem_reverse.1 hr0
    obtain ⟨x, y, hxy⟩ := (elimRun_provenance N U0).1 r0 hm
    obtain ⟨⟨h1, h2⟩, h3, h4⟩ := gme_left_conj_first_col x y
    rw [hxy, transpose_conjT]
    exact ⟨⟨h1, h2⟩, h3, h4⟩

/-- When every rotation has an exactly real first column, the convention
check succeeds and returns the parameter list. -/
lemma checkConvention_ok (rots : List (M2 × ℕ × ℕ))
    (h : ∀ r ∈ rots, r.1.a.im = 0 ∧ r.1.c.im = 0) :
    checkConvention rots = .ok (rots.map rotParam) := by
  induction rots with
  | nil => rfl
  | cons r rs ih =>
    have hr := h r (by simp)
    rw [checkConvention, if_pos hr.1, if_pos hr.2,
      ih fun r' hr' => h r' (by simp [hr'])]
    rfl

/-- The decomposition never raises: its output in explicit form. -/
lemma optimal_givens_decomposition_eq_ok {Q : Type} (qubits : ℕ → Q) (N : ℕ)
    (U0 : CMat) :
    optimal_givens_decomposition qubits N U0 = .ok
      ((((mergedRotations
            (migRunU (elimRun N U0).lefts fun k => (elimRun N U0).M k k).newLefts
            (elimRun N U0).rights).map rotParam).reverse.flatMap
          (emitRotation qubits))
        ++ (List.range N).map fun idx =>
            GOp.zpow (Complex.arg
              ((migRunU (elimRun N U0).lefts fun k => (elimRun N U0).M k k).d idx)
              / Real.pi) (qubits idx)) := by
  unfold optimal_givens_decomposition
  dsimp only
  rw [migRun_eq_ok]
  show (checkConvention _ >>= _) = _
  rw [checkConvention_ok _ fun r hr =>
    ⟨((merged_first_col N U0 r hr).1).1, ((merged_first_col N U0 r hr).2).1⟩]
  rfl

/-! ### Counting the eliminations and emitted operations -/

lemma elimSeq_length (N : ℕ) : (elimSeq N).length = N * (N - 1) / 2 := by
  have aux : ∀ n, 2 * (((List.range n).flatMap fun i0 =>
      let i := i0 + 1
      if i % 2 = 1 then colBlock N i else rowBlock N i).length)
      = n * (n + 1) := by
    intro n
    induction n with
    | zero => rfl
    | succ m ih =>
      rw [List.range_succ, List.flatMap_append, List.length_append, Nat.mul_add, ih]
      have hlen : ((fun i0 =>
          let i := i0 + 1
          if i % 2 = 1 then colBlock N i else rowBlock N i) m).length
          = m + 1 := by
        by_cases hp : (m + 1) % 2 = 1 <;> simp [hp, colBlock, rowBlock]
      simp only [List.flatMap_cons, List.flatMap_nil, List.append_nil, hlen]
      ring
  have h2 : 2 * (elimSeq N).length = N * (N - 1) := by
    unfold elimSeq
    cases N with
    | zero => rfl
    | succ m =>
      simp only [Nat.add_sub_cancel]
      rw [aux m]
      simp [Nat.mul_comm]
  have h3 := congrArg (fun t => t / 2) h2
  simpa using h3

lemma elimRun_sizes (N : ℕ) (U0 : CMat) :
    (elimRun N U0).rights.length + (elimRun N U0).lefts.length =
      (elimSeq N).length := by
  unfold elimRun
  generalize elimSeq N = steps
  suffices h : ∀ (l : List ElimStep) (st : ElimState),
      (l.foldl elimStepApply st).rights.length +
        (l.foldl elimStepApply st).lefts.length =
      st.rights.length + st.lefts.length + l.length by
    simpa using h steps ⟨U0, [], []⟩
  intro l
  induction l with
  | nil => intro st; simp
  | cons s ss ih =>
    intro st
    rw [List.foldl_cons, ih]
    cases s <;> simp [elimStepApply] <;> omega

lemma migRunU_length (lefts : List (M2 × ℕ × ℕ)) (d0 : ℕ → ℂ) :
    (migRunU lefts d0).newLefts.length = lefts.length := by
  unfold migRunU
  rw [← List.length_reverse lefts]
  generalize lefts.reverse = l
  suffices h : ∀ (l : List (M2 × ℕ × ℕ)) (st : MigState),
      (l.foldl migStepU st).newLefts.length = st.newLefts.length + l.length by
    simpa using h l ⟨d0, []⟩
  intro l
  induction l with
  | nil => intro st; simp
  | cons s ss ih =>
    intro st
    rw [List.foldl_cons, ih]
    simp [migStepU]
    omega

lemma mergedRotations_length (nl rs : List (M2 × ℕ × ℕ)) :
    (mergedRotations nl rs).length = nl.length + rs.length := by
  simp [mergedRotations]

lemma emit_ryxxy_count {Q : Type} (qubits : ℕ → Q) (r : RotParam) :
    (emitRotation qubits r).countP GOp.isRyxxy = 1 := by
  by_cases hp : r.phi = 0 <;> simp [emitRotation, hp, GOp.isRyxxy]

lemma emit_zpow_count {Q : Type} (qubits : ℕ → Q) (r : RotParam) :
    (emitRotation qubits r).countP GOp.isZpow = if r.phi = 0 then 0 else 1 := by
  by_cases hp : r.phi = 0 <;> simp [emitRotation, hp, GOp.isZpow]

lemma flatMap_count_ryxxy {Q : Type} (qubits : ℕ → Q) (rs : List RotParam) :
    (rs.flatMap (emitRotation qubits)).countP GOp.isRyxxy = rs.length := by
  induction rs with
  | nil => rfl
  | cons r rs ih =>
    rw [List.flatMap_cons, List.countP_append, ih, emit_ryxxy_count,
      List.length_cons]
    omega

lemma flatMap_count_zpow {Q : Type} (qubits : ℕ → Q) (rs : List RotParam) :
    (rs.flatMap (emitRotation qubits)).countP GOp.isZpow =
      rs.countP fun r => !decide (r.phi = 0) := by
  induction rs with
  | nil => rfl
  | cons r rs ih =>
    rw [List.flatMap_cons, List.countP_append, ih, emit_zpow_count,
      List.countP_cons]
    by_cases hp : r.phi = 0 <;> simp [hp] <;> omega

/-! ### Claim theorems for the Givens decomposition -/

/-- Claim C2: every 2×2 Givens rotation in the merged rotation list from
which `optimal_givens_decomposition` emits an operation has a first column
that is exactly real (entries `[0,0]` and `[1,0]` have zero imaginary part)
and non-negative; consequently the convention check of the emission loop
succeeds on every merged rotation and the decomposition never raises
`GivensMatrixError`.  The conditional part of the claim — a violating
rotation raises the error before any operation for it is emitted — is built
into the embedding: `checkConvention` returns the `matrixConvention` error at
the first rotation whose first column is not exactly real, the whole check
runs before the generator's first yield, and an error result carries no
operations. -/
theorem merged_givens_convention {Q : Type} (qubits : ℕ → Q) (N : ℕ)
    (U0 : CMat) :
    (∀ r ∈ mergedRotations
        (migRunU (elimRun N U0).lefts fun k => (elimRun N U0).M k k).newLefts
        (elimRun N U0).rights,
      (r.1.a.im = 0 ∧ 0 ≤ r.1.a.re) ∧ (r.1.c.im = 0 ∧ 0 ≤ r.1.c.re)) ∧
    checkConvention (mergedRotations
        (migRunU (elimRun N U0).lefts fun k => (elimRun N U0).M k k).newLefts
        (elimRun N U0).rights) =
      .ok ((mergedRotations
        (migRunU (elimRun N U0).lefts fun k => (elimRun N U0).M k k).newLefts
        (elimRun N U0).rights).map rotParam) ∧
    optimal_givens_decomposition qubits N U0 ≠ .error .matrixConvention := by
  refine ⟨merged_first_col N U0,
    checkConvention_ok _ fun r hr =>
      ⟨((merged_first_col N U0 r hr).1).1, ((merged_first_col N U0 r hr).2).1⟩,
    ?_⟩
  rw [optimal_givens_decomposition_eq_ok]
  simp

/-- Claim C7: during phase migration, every processed left rotation satisfies
the checked identity
`new_phase_matrix · new_givens_matrix.conj = matrix_to_decompose` exactly
(the exact-arithmetic rendering of the `numpy.allclose` tolerance check,
where `matrix_to_decompose = rotation† · diag(phase_before_i,
phase_before_j)` and the new rotation/diagonal pair is its decomposition —
the identity the source comments write as `T⁻¹·D = D·T`); the embedded
`migStep` raises `GivensTranspositionError` precisely when this check fails,
and since it never fails, the checked migration equals the unchecked one and
the decomposition never raises `GivensTranspositionError`. -/
theorem phase_migration_consistency {Q : Type} (qubits : ℕ → Q) (N : ℕ)
    (U0 : CMat) :
    (∀ t ∈ migTrace (elimRun N U0).lefts fun k => (elimRun N U0).M k k,
      t.2.2.mul t.2.1.conj = t.1) ∧
    migRun (elimRun N U0).lefts (fun k => (elimRun N U0).M k k) =
      .ok (migRunU (elimRun N U0).lefts fun k => (elimRun N U0).M k k) ∧
    optimal_givens_decomposition qubits N U0 ≠ .error .transposition := by
  refine ⟨migTrace_identity _ _, migRun_eq_ok _ _, ?_⟩
  rw [optimal_givens_decomposition_eq_ok]
  simp

/-- Claim C10: for every `N×N` input, `optimal_givens_decomposition` emits
exactly `N·(N−1)/2` two-qubit `Ryxxy` rotations (one per merged Givens
rotation) and exactly `N` trailing single-qubit Z-phase operations — one per
qubit index, emitted even when the residual diagonal phase angle is zero —
while the per-rotation `phi` Z-phase operation is emitted only when `phi` is
not (exactly) zero; for `N = 1` the output is exactly one Z-phase
operation. -/
theorem givens_rotation_phase_counts {Q : Type} (qubits : ℕ → Q) (N : ℕ)
    (U0 : CMat) :
    ∃ body : List (GOp Q),
      optimal_givens_decomposition qubits N U0 = .ok
        (body ++ (List.range N).map fun idx =>
          GOp.zpow (Complex.arg
            ((migRunU (elimRun N U0).lefts fun k => (elimRun N U0).M k k).d idx)
            / Real.pi) (qubits idx)) ∧
      body.countP GOp.isRyxxy = N * (N - 1) / 2 ∧
      body.countP GOp.isZpow =
        ((mergedRotations
            (migRunU (elimRun N U0).lefts fun k => (elimRun N U0).M k k).newLefts
            (elimRun N U0).rights).map rotParam).countP
          (fun r => !decide (r.phi = 0)) ∧
      (N = 1 → optimal_givens_decomposition qubits N U0 =
        .ok [GOp.zpow (Complex.arg (U0 0 0) / Real.pi) (qubits 0)]) := by
  refine ⟨_, optimal_givens_decomposition_eq_ok qubits N U0, ?_, ?_, ?_⟩
  · rw [flatMap_count_ryxxy, List.length_reverse, List.length_map,
      mergedRotations_length, migRunU_length]
    have h1 := elimRun_sizes N U0
    have h2 := elimSeq_length N
    omega
  · rw [flatMap_count_zpow, List.countP_reverse]
  · intro h1
    subst h1
    rw [optimal_givens_decomposition_eq_ok]
    rfl

/-! ### Further 2×2 matrix algebra (for the round-trip law) -/

namespace M2

/-- The embedding into Mathlib 2×2 matrices. -/
def toM (g : M2) : Matrix (Fin 2) (Fin 2) ℂ := !![g.a, g.b; g.c, g.d]

lemma toM_mul (x y : M2) : (x.mul y).toM = x.toM * y.toM := by
  ext r c
  fin_cases r <;> fin_cases c <;>
    simp [toM, mul, Matrix.mul_apply, Fin.sum_univ_two]

lemma toM_one : (one : M2).toM = 1 := by
  ext r c
  fin_cases r <;> fin_cases c <;> simp [toM, one]

lemma toM_injective : Function.Injective toM := by
  intro x y h
  have ha := congrFun (congrFun h 0) 0
  have hb := congrFun (congrFun h 0) 1
  have hc := congrFun (congrFun h 1) 0
  have hd := congrFun (congrFun h 1) 1
  simp [toM] at ha hb hc hd
  ext <;> assumption

/-- In 2×2 complex matrices a left inverse is a right inverse. -/
lemma mul_eq_one_comm {x y : M2} (h : x.mul y = one) : y.mul x = one := by
  apply toM_injective
  rw [toM_mul, toM_one]
  have h' := congrArg toM h
  rw [toM_mul, toM_one] at h'
  exact Matrix.mul_eq_one_comm.mp h'

/-- A unitary 2×2 matrix also satisfies `g · g† = 1`. -/
lemma mul_conjT_of_unitary {g : M2} (hg : g.unitary) : g.mul g.conjT = one :=
  mul_eq_one_comm hg

lemma conjT_mul (x y : M2) : (x.mul y).conjT = y.conjT.mul x.conjT := by
  ext <;> simp [mul, conjT] <;> ring

lemma conjT_conjT (x : M2) : x.conjT.conjT = x := by
  ext <;> simp [conjT]

/-- The conjugate transpose of a unitary matrix is unitary. -/
lemma conjT_unitary {g : M2} (hg : g.unitary) : g.conjT.unitary := by
  unfold unitary
  rw [conjT_conjT]
  exact mul_conjT_of_unitary hg

/-- The product of unitary matrices is unitary. -/
lemma mul_unitary {x y : M2} (hx : x.unitary) (hy : y.unitary) :
    (x.mul y).unitary := by
  unfold unitary at hx hy ⊢
  rw [conjT_mul, mul_assoc', ← mul_assoc' x.conjT, hx, one_mul', hy]

/-- A unitary matrix with zero lower-left entry is diagonal with unit-modulus
diagonal entries. -/
lemma unitary_c_zero {g : M2} (hg : g.unitary) (hc : g.c = 0) :
    g.b = 0 ∧ g.a * star g.a = 1 ∧ g.d * star g.d = 1 := by
  have h1 := congrArg M2.a hg
  have h2 := congrArg M2.b hg
  have h4 := congrArg M2.d hg
  simp only [M2.unitary, M2.mul, M2.conjT, M2.one, hc, star_zero, mul_zero,
    zero_mul, add_zero, zero_add] at h1 h2 h4
  have ha : star g.a ≠ 0 := by
    intro h0
    rw [h0, zero_mul] at h1
    exact one_ne_zero h1.symm
  have hb : g.b = 0 := by
    rcases mul_eq_zero.mp h2 with h | h
    · exact absurd h ha
    · exact h
  refine ⟨hb, ?_, ?_⟩
  · rw [mul_comm]; exact h1
  · rw [hb, star_zero, zero_mul, zero_add] at h4
    rw [mul_comm]; exact h4

end M2

/-! ### Plane rotations embedded as `N×N` matrices -/

/-- The embedding of a 2×2 matrix into the `N×N` identity at rows/columns
`(i, j)`. -/
def planeMat (N : ℕ) (g : M2) (i j : Fin N) : Matrix (Fin N) (Fin N) ℂ :=
  Matrix.of fun r c =>
    if r = i ∧ c = i then g.a
    else if r = i ∧ c = j then g.b
    else if r = j ∧ c = i then g.c
    else if r = j ∧ c = j then g.d
    else if r = c then 1 else 0

section PlaneMat

variable {N : ℕ} (g h : M2) (i j : Fin N)

lemma planeMat_row_i (hij : i ≠ j) (k : Fin N) :
    planeMat N g i j i k = (if k = i then g.a else 0) + (if k = j then g.b else 0) := by
  by_cases h1 : k = i
  · subst h1
    simp [planeMat, hij, Ne.symm hij]
  · by_cases h2 : k = j
    · subst h2
      simp [planeMat, hij, Ne.symm hij, h1]
    · simp [planeMat, h1, h2, Ne.symm h1]

lemma planeMat_row_j (hij : i ≠ j) (k : Fin N) :
    planeMat N g i j j k = (if k = i then g.c else 0) + (if k = j then g.d else 0) := by
  by_cases h1 : k = i
  · subst h1
    simp [planeMat, hij, Ne.symm hij]
  · by_cases h2 : k = j
    · subst h2
      simp [planeMat, hij, Ne.symm hij, h1]
    · simp [planeMat, h1, h2, hij, Ne.symm h2]

lemma planeMat_row_other (r : Fin N) (hr1 : r ≠ i) (hr2 : r ≠ j) (k : Fin N) :
    planeMat N g i j r k = if r = k then 1 else 0 := by
  simp [planeMat, hr1, hr2]

lemma planeMat_col_i (hij : i ≠ j) (k : Fin N) :
    planeMat N g i j k i = (if k = i then g.a else 0) + (if k = j then g.c else 0) := by
  by_cases h1 : k = i
  · subst h1
    simp [planeMat, hij, Ne.symm hij]
  · by_cases h2 : k = j
    · subst h2
      simp [planeMat, hij, Ne.symm hij, h1]
    · simp [planeMat, h1, h2, Ne.symm h1]

lemma planeMat_col_j (hij : i ≠ j) (k : Fin N) :
    planeMat N g i j k j = (if k = i then g.b else 0) + (if k = j then g.d else 0) := by
  by_cases h1 : k = i
  · subst h1
    simp [planeMat, hij, Ne.symm hij]
  · by_cases h2 : k = j
    · subst h2
      simp [planeMat, hij, Ne.symm hij, h1]
    · simp [planeMat, h1, h2, hij, Ne.symm h2]

lemma planeMat_col_other (c : Fin N) (hc1 : c ≠ i) (hc2 : c ≠ j) (k : Fin N) :
    planeMat N g i j k c = if k = c then 1 else 0 := by
  by_cases h1 : k = i
  · subst h1
    simp [planeMat, Ne.symm hc1, hc1, hc2]
  · by_cases h2 : k = j
    · subst h2
      simp [planeMat, Ne.symm hc2, hc1, hc2]
    · simp [planeMat, h1, h2, hc1, hc2, Ne.symm hc1, Ne.symm hc2]

lemma planeMat_mul_apply (hij : i ≠ j) (A : Matrix (Fin N) (Fin N) ℂ)
    (r c : Fin N) :
    (planeMat N g i j * A) r c =
      if r = i then g.a * A i c + g.b * A j c
      else if r = j then g.c * A i c + g.d * A j c
      else A r c := by
  rw [Matrix.mul_apply]
  by_cases h1 : r = i
  · subst h1
    rw [if_pos rfl,
      Finset.sum_congr rfl fun k _ => by rw [planeMat_row_i _ _ _ hij k]]
    simp [add_mul, Finset.sum_add_distrib, ite_mul]
  · by_cases h2 : r = j
    · subst h2
      rw [if_neg h1, if_pos rfl,
        Finset.sum_congr rfl fun k _ => by rw [planeMat_row_j _ _ _ hij k]]
      simp [add_mul, Finset.sum_add_distrib, ite_mul]
    · rw [if_neg h1, if_neg h2,
        Finset.sum_congr rfl fun k _ => by
          rw [planeMat_row_other g i j r h1 h2 k]]
      simp [ite_mul]

lemma mul_planeMat_apply (hij : i ≠ j) (A : Matrix (Fin N) (Fin N) ℂ)
    (r c : Fin N) :
    (A * planeMat N g i j) r c =
      if c = i then A r i * g.a + A r j * g.c
      else if c = j then A r i * g.b + A r j * g.d
      else A r c := by
  rw [Matrix.mul_apply]
  by_cases h1 : c = i
  · subst h1
    rw [if_pos rfl,
      Finset.sum_congr rfl fun k _ => by rw [planeMat_col_i _ _ _ hij k]]
    simp [mul_add, Finset.sum_add_distrib, mul_ite]
  · by_cases h2 : c = j
    · subst h2
      rw [if_neg h1, if_pos rfl,
        Finset.sum_congr rfl fun k _ => by rw [planeMat_col_j _ _ _ hij k]]
      simp [mul_add, Finset.sum_add_distrib, mul_ite]
    · rw [if_neg h1, if_neg h2,
        Finset.sum_congr rfl fun k _ => by
          rw [planeMat_col_other g i j c h1 h2 k]]
      simp [mul_ite]

lemma planeMat_one (hij : i ≠ j) : planeMat N M2.one i j = 1 := by
  ext r c
  rw [Matrix.one_apply]
  by_cases h1 : r = i
  · rw [h1, planeMat_row_i _ _ _ hij c]
    by_cases hc1 : c = i
    · rw [hc1]; simp [M2.one]
    · by_cases hc2 : c = j
      · rw [hc2]; simp [M2.one, hij, Ne.symm hij]
      · simp [M2.one, hc1, hc2, Ne.symm hc1]
  · by_cases h2 : r = j
    · rw [h2, planeMat_row_j _ _ _ hij c]
      by_cases hc1 : c = i
      · rw [hc1]; simp [M2.one, hij, Ne.symm hij]
      · by_cases hc2 : c = j
        · rw [hc2]; simp [M2.one]
        · simp [M2.one, hc1, hc2, Ne.symm hc2]
    · rw [planeMat_row_other _ _ _ r h1 h2 c]

lemma planeMat_mul_planeMat (hij : i ≠ j) :
    planeMat N g i j * planeMat N h i j = planeMat N (g.mul h) i j := by
  ext r c
  rw [planeMat_mul_apply _ _ _ hij]
  by_cases h1 : r = i
  · rw [if_pos h1, h1, planeMat_row_i _ _ _ hij c, planeMat_row_j _ _ _ hij c,
      planeMat_row_i _ _ _ hij c]
    by_cases hc1 : c = i
    · rw [hc1]; simp [M2.mul, hij, Ne.symm hij]
    · by_cases hc2 : c = j
      · rw [hc2]; simp [M2.mul, hij, Ne.symm hij, hc1]
      · simp [M2.mul, hc1, hc2]
  · by_cases h2 : r = j
    · rw [if_neg h1, if_pos h2, h2, planeMat_row_i _ _ _ hij c,
        planeMat_row_j _ _ _ hij c, planeMat_row_j _ _ _ hij c]
      by_cases hc1 : c = i
      · rw [hc1]; simp [M2.mul, hij, Ne.symm hij]
      · by_cases hc2 : c = j
        · rw [hc2]; simp [M2.mul, hij, Ne.symm hij, hc1]
        · simp [M2.mul, hc1, hc2]
    · rw [if_neg h1, if_neg h2]
      by_cases hc1 : c = i
      · rw [hc1, planeMat_col_i _ _ _ hij r, planeMat_col_i _ _ _ hij r]
        simp [h1, h2]
      · by_cases hc2 : c = j
        · rw [hc2, planeMat_col_j _ _ _ hij r, planeMat_col_j _ _ _ hij r]
          simp [h1, h2]
        · rw [planeMat_col_other _ _ _ c hc1 hc2 r,
            planeMat_col_other _ _ _ c hc1 hc2 r]

lemma planeMat_conjTranspose (hij : i ≠ j) :
    (planeMat N g i j).conjTranspose = planeMat N g.conjT i j := by
  ext r c
  rw [Matrix.conjTranspose_apply]
  by_cases h1 : r = i
  · rw [h1, planeMat_col_i _ _ _ hij c, planeMat_row_i _ _ _ hij c]
    by_cases hc1 : c = i
    · rw [hc1]; simp [M2.conjT, hij]
    · by_cases hc2 : c = j
      · rw [hc2]; simp [M2.conjT, hij, Ne.symm hij, hc1]
      · simp [M2.conjT, hc1, hc2]
  · by_cases h2 : r = j
    · rw [h2, planeMat_col_j _ _ _ hij c, planeMat_row_j _ _ _ hij c]
      by_cases hc1 : c = i
      · rw [hc1]; simp [M2.conjT, hij, Ne.symm hij]
      · by_cases hc2 : c = j
        · rw [hc2]; simp [M2.conjT, hij, Ne.symm hij]
        · simp [M2.conjT, hc1, hc2]
    · rw [planeMat_col_other _ _ _ r h1 h2 c, planeMat_row_other _ _ _ r h1 h2 c]
      by_cases hrc : r = c
      · rw [hrc]; simp
      · simp [hrc, Ne.symm hrc]

/-- A plane rotation with unitary block is unitary (both star products). -/
lemma planeMat_star_mul_self {g : M2} (hg : g.unitary) (hij : i ≠ j) :
    star (planeMat N g i j) * planeMat N g i j = 1 := by
  show (planeMat N g i j).conjTranspose * planeMat N g i j = 1
  rw [planeMat_conjTranspose _ _ _ hij, planeMat_mul_planeMat _ _ _ _ hij, hg,
    planeMat_one _ _ hij]

lemma planeMat_mul_self_star {g : M2} (hg : g.unitary) (hij : i ≠ j) :
    planeMat N g i j * star (planeMat N g i j) = 1 := by
  show planeMat N g i j * (planeMat N g i j).conjTranspose = 1
  rw [planeMat_conjTranspose _ _ _ hij, planeMat_mul_planeMat _ _ _ _ hij,
    M2.mul_conjT_of_unitary hg, planeMat_one _ _ hij]

end PlaneMat

/-! ### Restriction of the working matrix and the elimination as a product -/

/-- The `N×N` restriction of a working matrix. -/
def restr (N : ℕ) (M : CMat) : Matrix (Fin N) (Fin N) ℂ :=
  Matrix.of fun r c => M (r : ℕ) (c : ℕ)

/-- Plane rotation with natural-number indices, guarded (identity when the
indices are out of range or equal). -/
def planeMatN (N : ℕ) (g : M2) (i j : ℕ) : Matrix (Fin N) (Fin N) ℂ :=
  if h : i < N ∧ j < N ∧ i ≠ j then planeMat N g ⟨i, h.1⟩ ⟨j, h.2.1⟩ else 1

lemma planeMatN_pos {N : ℕ} (g : M2) {i j : ℕ} (hi : i < N) (hj : j < N)
    (hij : i ≠ j) : planeMatN N g i j = planeMat N g ⟨i, hi⟩ ⟨j, hj⟩ := by
  rw [planeMatN, dif_pos ⟨hi, hj, hij⟩]

lemma fin_mk_ne {N i j : ℕ} (hi : i < N) (hj : j < N) (hij : i ≠ j) :
    (⟨i, hi⟩ : Fin N) ≠ ⟨j, hj⟩ := by
  intro h
  exact hij (congrArg Fin.val h)

lemma restr_rowRot {N : ℕ} (g : M2) (r1 r2 : ℕ) (M : CMat)
    (h1 : r1 < N) (h2 : r2 < N) (hne : r1 ≠ r2) :
    restr N (givens_rotate_row g r1 r2 M) = planeMatN N g r1 r2 * restr N M := by
  ext r c
  rw [planeMatN_pos g h1 h2 hne,
    planeMat_mul_apply _ _ _ (fin_mk_ne h1 h2 hne)]
  show givens_rotate_row g r1 r2 M (r : ℕ) (c : ℕ) = _
  unfold givens_rotate_row
  by_cases hr1 : (r : ℕ) = r1
  · rw [if_pos hr1, if_pos (Fin.ext hr1)]
    rfl
  · rw [if_neg hr1, if_neg fun h => hr1 (congrArg Fin.val h)]
    by_cases hr2 : (r : ℕ) = r2
    · rw [if_pos hr2, if_pos (Fin.ext hr2)]
      rfl
    · rw [if_neg hr2, if_neg fun h => hr2 (congrArg Fin.val h)]
      rfl

lemma restr_colRot {N : ℕ} (g : M2) (c1 c2 : ℕ) (M : CMat)
    (h1 : c1 < N) (h2 : c2 < N) (hne : c1 ≠ c2) :
    restr N (givens_rotate_col g c1 c2 M) =
      restr N M * planeMatN N g.conjT c1 c2 := by
  ext r c
  rw [planeMatN_pos g.conjT h1 h2 hne,
    mul_planeMat_apply _ _ _ (fin_mk_ne h1 h2 hne)]
  show givens_rotate_col g c1 c2 M (r : ℕ) (c : ℕ) = _
  unfold givens_rotate_col
  by_cases hc1 : (c : ℕ) = c1
  · rw [if_pos hc1, if_pos (Fin.ext hc1)]
    simp only [restr, Matrix.of_apply, M2.conjT]
    ring
  · rw [if_neg hc1, if_neg fun h => hc1 (congrArg Fin.val h)]
    by_cases hc2 : (c : ℕ) = c2
    · rw [if_pos hc2, if_pos (Fin.ext hc2)]
      simp only [restr, Matrix.of_apply, M2.conjT]
      ring
    · rw [if_neg hc2, if_neg fun h => hc2 (congrArg Fin.val h)]
      rfl

/-- Left product of recorded rotations: last recorded leftmost. -/
def ProdL (N : ℕ) (l : List (M2 × ℕ × ℕ)) : Matrix (Fin N) (Fin N) ℂ :=
  l.foldl (fun acc r => planeMatN N r.1 r.2.1 r.2.2 * acc) 1

/-- Right product of recorded rotations, in recording order. -/
def ProdR (N : ℕ) (l : List (M2 × ℕ × ℕ)) : Matrix (Fin N) (Fin N) ℂ :=
  l.foldl (fun acc r => acc * planeMatN N r.1 r.2.1 r.2.2) 1

lemma ProdL_append_single (N : ℕ) (l : List (M2 × ℕ × ℕ)) (r : M2 × ℕ × ℕ) :
    ProdL N (l ++ [r]) = planeMatN N r.1 r.2.1 r.2.2 * ProdL N l := by
  unfold ProdL
  rw [List.foldl_append]
  rfl

lemma ProdR_append_single (N : ℕ) (l : List (M2 × ℕ × ℕ)) (r : M2 × ℕ × ℕ) :
    ProdR N (l ++ [r]) = ProdR N l * planeMatN N r.1 r.2.1 r.2.2 := by
  unfold ProdR
  rw [List.foldl_append]
  rfl

/-- Validity of an elimination step w.r.t. the matrix size. -/
def ElimStep.ok (N : ℕ) : ElimStep → Prop
  | .colStep r C => r < N ∧ C + 1 < N ∧ C < r
  | .rowStep R c => R < N ∧ 1 ≤ R ∧ c < R

lemma elimSeq_ok (N : ℕ) : ∀ s ∈ elimSeq N, s.ok N := by
  intro s hs
  unfold elimSeq at hs
  rcases List.mem_flatMap.1 hs with ⟨i0, hi0, hmem⟩
  rw [List.mem_range] at hi0
  dsimp only at hmem
  unfold colBlock rowBlock at hmem
  by_cases hp : (i0 + 1) % 2 = 1
  · rw [if_pos hp] at hmem
    rcases List.mem_map.1 hmem with ⟨j, hj, rfl⟩
    rw [List.mem_range] at hj
    exact ⟨by omega, by omega, by omega⟩
  · rw [if_neg hp] at hmem
    rcases List.mem_map.1 hmem with ⟨j, hj, rfl⟩
    rw [List.mem_range] at hj
    exact ⟨by omega, by omega, by omega⟩

/-- The elimination loop expresses the working matrix as
`(left rotations) · U₀ · (right rotations)`. -/
lemma elim_product (N : ℕ) (U0 : CMat) :
    restr N (elimRun N U0).M =
      ProdL N (elimRun N U0).lefts * restr N U0 *
        ProdR N (elimRun N U0).rights := by
  have hok := elimSeq_ok N
  unfold elimRun
  suffices h : ∀ (l : List ElimStep) (st : ElimState),
      (∀ s ∈ l, s.ok N) →
      restr N st.M = ProdL N st.lefts * restr N U0 * ProdR N st.rights →
      restr N (l.foldl elimStepApply st).M =
        ProdL N (l.foldl elimStepApply st).lefts * restr N U0 *
          ProdR N (l.foldl elimStepApply st).rights by
    exact h (elimSeq N) ⟨U0, [], []⟩ hok (by simp [ProdL, ProdR])
  intro l
  induction l with
  | nil => intro st _ hst; exact hst
  | cons s ss ih =>
    intro st hl hst
    rw [List.foldl_cons]
    refine ih _ (fun s' hs' => hl s' (by simp [hs'])) ?_
    have hsok := hl s (by simp)
    cases s with
    | colStep r C =>
      obtain ⟨hrN, hCN, hCr⟩ := hsok
      show restr N (givens_rotate_col _ C (C + 1) st.M) = _
      rw [restr_colRot _ C (C + 1) st.M (by omega) hCN (by omega), hst,
        M2.conj_conjT]
      show _ = ProdL N st.lefts * restr N U0 * ProdR N (st.rights ++ [_])
      rw [ProdR_append_single]
      simp only [mul_assoc]
    | rowStep R c =>
      obtain ⟨hRN, hR1, _⟩ := hsok
      show restr N (givens_rotate_row _ (R - 1) R st.M) = _
      rw [restr_rowRot _ (R - 1) R st.M (by omega) hRN (by omega), hst]
      show _ = ProdL N (st.lefts ++ [_]) * restr N U0 * ProdR N st.rights
      rw [ProdL_append_single]
      simp only [mul_assoc]

/-! ### The lower triangle is eliminated (zero-structure of the schedule) -/

/-- The matrix part of one elimination step. -/
def elimMat (M : CMat) : ElimStep → CMat
  | .colStep r C =>
    givens_rotate_col (givens_matrix_elements_left (M r C) (M r (C + 1))).conj
      C (C + 1) M
  | .rowStep R c =>
    givens_rotate_row (givens_matrix_elements_right (M (R - 1) c) (M R c))
      (R - 1) R M

lemma elimStepApply_M (st : ElimState) (s : ElimStep) :
    (elimStepApply st s).M = elimMat st.M s := by
  cases s <;> rfl

lemma foldl_elim_M (l : List ElimStep) (st : ElimState) :
    (l.foldl elimStepApply st).M = l.foldl elimMat st.M := by
  induction l generalizing st with
  | nil => rfl
  | cons s ss ih =>
    rw [List.foldl_cons, List.foldl_cons, ih, elimStepApply_M]

lemma elimMat_colStep (M : CMat) (r C r' c' : ℕ) :
    elimMat M (.colStep r C) r' c' =
      if c' = C then
        (givens_matrix_elements_left (M r C) (M r (C + 1))).a * M r' C +
          (givens_matrix_elements_left (M r C) (M r (C + 1))).b * M r' (C + 1)
      else if c' = C + 1 then
        (givens_matrix_elements_left (M r C) (M r (C + 1))).c * M r' C +
          (givens_matrix_elements_left (M r C) (M r (C + 1))).d * M r' (C + 1)
      else M r' c' := by
  show givens_rotate_col _ C (C + 1) M r' c' = _
  unfold givens_rotate_col
  by_cases h1 : c' = C
  · rw [if_pos h1, if_pos h1]
    simp [M2.conj]
  · rw [if_neg h1, if_neg h1]
    by_cases h2 : c' = C + 1
    · rw [if_pos h2, if_pos h2]
      simp [M2.conj]
    · rw [if_neg h2, if_neg h2]

lemma elimMat_rowStep (M : CMat) (R c r' c' : ℕ) :
    elimMat M (.rowStep R c) r' c' =
      if r' = R - 1 then
        (givens_matrix_elements_right (M (R - 1) c) (M R c)).a * M (R - 1) c' +
          (givens_matrix_elements_right (M (R - 1) c) (M R c)).b * M R c'
      else if r' = R then
        (givens_matrix_elements_right (M (R - 1) c) (M R c)).c * M (R - 1) c' +
          (givens_matrix_elements_right (M (R - 1) c) (M R c)).d * M R c'
      else M r' c' := by
  show givens_rotate_row _ (R - 1) R M r' c' = _
  unfold givens_rotate_row
  rfl

/-- The column step zeroes its target entry. -/
lemma elimMat_colStep_target (M : CMat) (r C : ℕ) :
    elimMat M (.colStep r C) r C = 0 := by
  rw [elimMat_colStep, if_pos rfl]
  exact gme_left_zeroes _ _

/-- The row step zeroes its target entry. -/
lemma elimMat_rowStep_target (M : CMat) (R c : ℕ) (hR : 1 ≤ R) :
    elimMat M (.rowStep R c) R c = 0 := by
  rw [elimMat_rowStep, if_neg (by omega), if_pos rfl]
  exact gme_right_zeroes _ _

/-- All entries at depth at least `d` below the diagonal vanish. -/
def ZeroBeyond (M : CMat) (N d : ℕ) : Prop :=
  ∀ r c : ℕ, r < N → c < r → d ≤ r - c → M r c = 0

/-- The first `j` eliminations of an odd (column) outer iteration. -/
def colBlockPart (N i j : ℕ) : List ElimStep :=
  (List.range j).map fun j' => ElimStep.colStep (N - j' - 1) (i - j' - 1)

/-- The first `j` eliminations of an even (row) outer iteration. -/
def rowBlockPart (N i j : ℕ) : List ElimStep :=
  (List.range j).map fun j' => ElimStep.rowStep (N + j' - i) j'

/-- Invariant of the inner loop of a column iteration: entries strictly above
the current anti-diagonal stay zero and the already eliminated entries of the
current anti-diagonal stay zero. -/
lemma colBlock_inv (N i : ℕ) (hi1 : 1 ≤ i) (hiN : i < N) (M : CMat)
    (h0 : ZeroBeyond M N (N - i + 1)) :
    ∀ j, j ≤ i →
      ZeroBeyond ((colBlockPart N i j).foldl elimMat M) N (N - i + 1) ∧
      ∀ j'' < j,
        ((colBlockPart N i j).foldl elimMat M) (N - j'' - 1) (i - j'' - 1) = 0 := by
  intro j
  induction j with
  | zero =>
    intro _
    exact ⟨h0, fun j'' h => absurd h (by omega)⟩
  | succ j ih =>
    intro hj
    obtain ⟨IH1, IH2⟩ := ih (by omega)
    have hstep : colBlockPart N i (j + 1) =
        colBlockPart N i j ++ [ElimStep.colStep (N - j - 1) (i - j - 1)] := by
      unfold colBlockPart
      rw [List.range_succ, List.map_append, List.map_singleton]
    rw [hstep, List.foldl_append, List.foldl_cons, List.foldl_nil]
    set Mj := (colBlockPart N i j).foldl elimMat M with hMj
    constructor
    · intro r' c' hrN hcr hdep
      rw [elimMat_colStep]
      by_cases hc1 : c' = i - j - 1
      · rw [if_pos hc1]
        have hz1 : Mj r' (i - j - 1) = 0 := by
          have := IH1 r' c' hrN hcr hdep
          rw [hc1] at this
          exact this
        have hz2 : Mj r' (i - j - 1 + 1) = 0 := by
          by_cases hx : N - i + 1 ≤ r' - (i - j - 1 + 1)
          · exact IH1 r' _ hrN (by omega) hx
          · have hj1 : 1 ≤ j := by omega
            have hr' : r' = N - j := by omega
            have hcol : i - j - 1 + 1 = i - (j - 1) - 1 := by omega
            have hrow : N - j = N - (j - 1) - 1 := by omega
            rw [hcol, hr', hrow]
            exact IH2 (j - 1) (by omega)
        rw [hz1, hz2, mul_zero, mul_zero, add_zero]
      · rw [if_neg hc1]
        by_cases hc2 : c' = i - j - 1 + 1
        · rw [if_pos hc2]
          have hz2 : Mj r' (i - j - 1 + 1) = 0 := by
            have := IH1 r' c' hrN hcr hdep
            rw [hc2] at this
            exact this
          have hz1 : Mj r' (i - j - 1) = 0 :=
            IH1 r' _ hrN (by omega) (by omega)
          rw [hz1, hz2, mul_zero, mul_zero, add_zero]
        · rw [if_neg hc2]
          exact IH1 r' c' hrN hcr hdep
    · intro j'' hj''
      by_cases hjj : j'' = j
      · rw [hjj]
        exact elimMat_colStep_target Mj (N - j - 1) (i - j - 1)
      · have hlt : j'' < j := by omega
        rw [elimMat_colStep]
        have hne1 : i - j'' - 1 ≠ i - j - 1 := by omega
        rw [if_neg hne1]
        by_cases hc2 : i - j'' - 1 = i - j - 1 + 1
        · rw [if_pos hc2]
          have hj'' : j'' = j - 1 := by omega
          have hz2 : Mj (N - j'' - 1) (i - j - 1 + 1) = 0 := by
            rw [← hc2]
            exact IH2 j'' hlt
          have hz1 : Mj (N - j'' - 1) (i - j - 1) = 0 :=
            IH1 _ _ (by omega) (by omega) (by omega)
          rw [hz1, hz2, mul_zero, mul_zero, add_zero]
        · rw [if_neg hc2]
          exact IH2 j'' hlt

/-- After a full column iteration the current anti-diagonal is zero. -/
lemma colBlock_zero (N i : ℕ) (hi1 : 1 ≤ i) (hiN : i < N) (M : CMat)
    (h0 : ZeroBeyond M N (N - i + 1)) :
    ZeroBeyond ((colBlock N i).foldl elimMat M) N (N - i) := by
  obtain ⟨ZB, TG⟩ := colBlock_inv N i hi1 hiN M h0 i (le_refl i)
  have heq : colBlock N i = colBlockPart N i i := rfl
  intro r' c' hrN hcr hdep
  rw [heq]
  by_cases hx : N - i + 1 ≤ r' - c'
  · exact ZB r' c' hrN hcr hx
  · have h1 : N - 1 - r' < i := by omega
    have h2 : N - (N - 1 - r') - 1 = r' := by omega
    have h3 : i - (N - 1 - r') - 1 = c' := by omega
    have := TG (N - 1 - r') h1
    rw [h2, h3] at this
    exact this

/-- Invariant of the inner loop of a row iteration. -/
lemma rowBlock_inv (N i : ℕ) (hi1 : 1 ≤ i) (hiN : i < N) (M : CMat)
    (h0 : ZeroBeyond M N (N - i + 1)) :
    ∀ j, j ≤ i →
      ZeroBeyond ((rowBlockPart N i j).foldl elimMat M) N (N - i + 1) ∧
      ∀ j'' < j,
        ((rowBlockPart N i j).foldl elimMat M) (N + j'' - i) j'' = 0 := by
  intro j
  induction j with
  | zero =>
    intro _
    exact ⟨h0, fun j'' h => absurd h (by omega)⟩
  | succ j ih =>
    intro hj
    obtain ⟨IH1, IH2⟩ := ih (by omega)
    have hstep : rowBlockPart N i (j + 1) =
        rowBlockPart N i j ++ [ElimStep.rowStep (N + j - i) j] := by
      unfold rowBlockPart
      rw [List.range_succ, List.map_append, List.map_singleton]
    rw [hstep, List.foldl_append, List.foldl_cons, List.foldl_nil]
    set Mj := (rowBlockPart N i j).foldl elimMat M with hMj
    constructor
    · intro r' c' hrN hcr hdep
      rw [elimMat_rowStep]
      by_cases hr1 : r' = N + j - i - 1
      · rw [if_pos hr1]
        have hz1 : Mj (N + j - i - 1) c' = 0 := by
          have := IH1 r' c' hrN hcr hdep
          rw [hr1] at this
          exact this
        have hz2 : Mj (N + j - i) c' = 0 :=
          IH1 _ c' (by omega) (by omega) (by omega)
        rw [hz1, hz2, mul_zero, mul_zero, add_zero]
      · rw [if_neg hr1]
        by_cases hr2 : r' = N + j - i
        · rw [if_pos hr2]
          have hz2 : Mj (N + j - i) c' = 0 := by
            have := IH1 r' c' hrN hcr hdep
            rw [hr2] at this
            exact this
          have hz1 : Mj (N + j - i - 1) c' = 0 := by
            by_cases hx : N - i + 1 ≤ N + j - i - 1 - c'
            · exact IH1 _ c' (by omega) (by omega) hx
            · have hj1 : 1 ≤ j := by omega
              have hc' : c' = j - 1 := by omega
              have hrow : N + j - i - 1 = N + (j - 1) - i := by omega
              rw [hrow, hc']
              exact IH2 (j - 1) (by omega)
          rw [hz1, hz2, mul_zero, mul_zero, add_zero]
        · rw [if_neg hr2]
          exact IH1 r' c' hrN hcr hdep
    · intro j'' hj''
      by_cases hjj : j'' = j
      · rw [hjj]
        exact elimMat_rowStep_target Mj (N + j - i) j (by omega)
      · have hlt : j'' < j := by omega
        rw [elimMat_rowStep]
        have hne2 : N + j'' - i ≠ N + j - i := by omega
        by_cases hr1 : N + j'' - i = N + j - i - 1
        · rw [if_pos hr1]
          have hj'' : j'' = j - 1 := by omega
          have hz1 : Mj (N + j - i - 1) j'' = 0 := by
            rw [← hr1]
            exact IH2 j'' hlt
          have hz2 : Mj (N + j - i) j'' = 0 :=
            IH1 _ _ (by omega) (by omega) (by omega)
          rw [hz1, hz2, mul_zero, mul_zero, add_zero]
        · rw [if_neg hr1, if_neg hne2]
          exact IH2 j'' hlt

/-- After a full row iteration the current anti-diagonal is zero. -/
lemma rowBlock_zero (N i : ℕ) (hi1 : 1 ≤ i) (hiN : i < N) (M : CMat)
    (h0 : ZeroBeyond M N (N - i + 1)) :
    ZeroBeyond ((rowBlock N i).foldl elimMat M) N (N - i) := by
  obtain ⟨ZB, TG⟩ := rowBlock_inv N i hi1 hiN M h0 i (le_refl i)
  have heq : rowBlock N i = rowBlockPart N i i := rfl
  intro r' c' hrN hcr hdep
  rw [heq]
  by_cases hx : N - i + 1 ≤ r' - c'
  · exact ZB r' c' hrN hcr hx
  · have h1 : c' < i := by omega
    have h2 : N + c' - i = r' := by omega
    have := TG c' h1
    rw [h2] at this
    exact this

/-- Folding over a flattened list is the nested fold. -/
lemma foldl_flatMap {α β σ : Type} (l : List α) (f : α → List β)
    (step : σ → β → σ) (init : σ) :
    (l.flatMap f).foldl step init =
      l.foldl (fun acc x => (f x).foldl step acc) init := by
  induction l generalizing init with
  | nil => rfl
  | cons a as ih =>
    rw [List.flatMap_cons, List.foldl_append, List.foldl_cons, ih]

/-- The elimination schedule zeroes the whole strict lower triangle. -/
lemma elim_lower_zero (N : ℕ) (U0 : CMat) :
    ZeroBeyond ((elimSeq N).foldl elimMat U0) N 1 := by
  unfold elimSeq
  rw [foldl_flatMap]
  suffices h : ∀ n, n ≤ N - 1 →
      ZeroBeyond ((List.range n).foldl
        (fun acc i0 =>
          ((let i := i0 + 1
            if i % 2 = 1 then colBlock N i else rowBlock N i).foldl
            elimMat acc)) U0) N (N - n) by
    have hfin := h (N - 1) (le_refl _)
    intro r c hr hc hd
    exact hfin r c hr hc (by omega)
  intro n
  induction n with
  | zero =>
    intro _ r c hr hc hd
    omega
  | succ m ih =>
    intro hm
    rw [List.range_succ, List.foldl_append, List.foldl_cons, List.foldl_nil]
    have prev := ih (by omega)
    have hsub : N - (m + 1) + 1 = N - m := by omega
    dsimp only
    by_cases hp : (m + 1) % 2 = 1
    · rw [if_pos hp]
      have := colBlock_zero N (m + 1) (by omega) (by omega) _ (by rw [hsub]; exact prev)
      exact this
    · rw [if_neg hp]
      have := rowBlock_zero N (m + 1) (by omega) (by omega) _ (by rw [hsub]; exact prev)
      exact this

/-! ### A triangular unitary matrix is diagonal -/

lemma upper_unitary_diagonal {N : ℕ} (A : Matrix (Fin N) (Fin N) ℂ)
    (hU : star A * A = 1)
    (hlow : ∀ i j : Fin N, (j : ℕ) < (i : ℕ) → A i j = 0) :
    (∀ i j : Fin N, i ≠ j → A i j = 0) ∧
      ∀ j : Fin N, A j j * star (A j j) = 1 := by
  have main : ∀ n : ℕ, ∀ j : Fin N, (j : ℕ) = n →
      (∀ i : Fin N, i ≠ j → A i j = 0) ∧ A j j * star (A j j) = 1 := by
    intro n
    induction n using Nat.strong_induction_on with
    | _ n ih =>
      intro j hjn
      have hcol : ∀ i : Fin N, i ≠ j → A i j = 0 := by
        intro i hij
        by_cases hlt : (j : ℕ) < (i : ℕ)
        · exact hlow i j hlt
        · have hilt : (i : ℕ) < (j : ℕ) := by
            rcases Nat.lt_trichotomy (i : ℕ) (j : ℕ) with h | h | h
            · exact h
            · exact absurd (Fin.ext h) hij
            · exact absurd h hlt
          obtain ⟨hzero, hdiag⟩ := ih (i : ℕ) (by omega) i rfl
          have hent := congrFun (congrFun hU i) j
          rw [Matrix.mul_apply, Matrix.one_apply_ne hij] at hent
          have hsum : ∀ k : Fin N, k ≠ i →
              star A i k * A k j = 0 := by
            intro k hk
            rw [Matrix.star_apply, hzero k hk, star_zero, zero_mul]
          rw [Finset.sum_eq_single i
            (fun k _ hk => hsum k hk) (fun h => absurd (Finset.mem_univ i) h)]
            at hent
          rw [Matrix.star_apply] at hent
          have hAii : star (A i i) ≠ 0 := by
            intro h0
            rw [h0, mul_zero] at hdiag
            exact one_ne_zero hdiag.symm
          exact (mul_eq_zero.mp hent).resolve_left hAii
      refine ⟨hcol, ?_⟩
      have hent := congrFun (congrFun hU j) j
      rw [Matrix.mul_apply, Matrix.one_apply_eq] at hent
      have hsum : ∀ k : Fin N, k ≠ j → star A j k * A k j = 0 := by
        intro k hk
        rw [hcol k hk, mul_zero]
      rw [Finset.sum_eq_single j
        (fun k _ hk => hsum k hk) (fun h => absurd (Finset.mem_univ j) h)]
        at hent
      rw [Matrix.star_apply] at hent
      rw [mul_comm]
      exact hent
  exact ⟨fun i j hij => (main (j : ℕ) j rfl).1 i hij,
    fun j => (main (j : ℕ) j rfl).2⟩

/-! ### The phase migration as a matrix identity -/

lemma M2.conj_mul (x y : M2) : (x.mul y).conj = x.conj.mul y.conj := by
  ext <;> simp [M2.mul, M2.conj]

lemma M2.conj_one : (M2.one).conj = M2.one := by
  ext <;> simp [M2.one, M2.conj]

lemma M2.transpose_unitary {g : M2} (hg : g.unitary) : g.transpose.unitary := by
  show g.transpose.conjT.mul g.transpose = M2.one
  have h := congrArg M2.conj (M2.mul_conjT_of_unitary hg)
  rw [M2.conj_mul] at h
  have h1 : g.conjT.conj = g.transpose := by
    ext <;> simp [M2.conjT, M2.conj, M2.transpose]
  have h2 : g.transpose.conjT = g.conj := rfl
  rw [h1, M2.conj_one] at h
  rw [h2]
  exact h

lemma diag2_unitary {di dj : ℂ} (hdi : di * star di = 1)
    (hdj : dj * star dj = 1) : (M2.mk di 0 0 dj).unitary := by
  unfold M2.unitary M2.conjT M2.mul M2.one
  ext <;> simp only [star_zero, mul_zero, zero_mul, add_zero, zero_add]
  · rw [mul_comm]; exact hdi
  · rw [mul_comm]; exact hdj

/-- The 2×2 content of one phase-migration step: the new phase matrix is
diagonal with unit-modulus entries and carries the rotation through. -/
lemma mig_step_2x2 (g : M2) (hg : g.unitary) (di dj : ℂ)
    (hdi : di * star di = 1) (hdj : dj * star dj = 1) :
    (M2.mul (g.conjT.mul (M2.mk di 0 0 dj))
        (givens_matrix_elements_left (g.conjT.mul (M2.mk di 0 0 dj)).c
          (g.conjT.mul (M2.mk di 0 0 dj)).d).transpose).b = 0 ∧
    (M2.mul (g.conjT.mul (M2.mk di 0 0 dj))
        (givens_matrix_elements_left (g.conjT.mul (M2.mk di 0 0 dj)).c
          (g.conjT.mul (M2.mk di 0 0 dj)).d).transpose).c = 0 ∧
    g.conjT.mul (M2.mk di 0 0 dj) =
      (M2.mk (M2.mul (g.conjT.mul (M2.mk di 0 0 dj))
          (givens_matrix_elements_left (g.conjT.mul (M2.mk di 0 0 dj)).c
            (g.conjT.mul (M2.mk di 0 0 dj)).d).transpose).a 0 0
        (M2.mul (g.conjT.mul (M2.mk di 0 0 dj))
          (givens_matrix_elements_left (g.conjT.mul (M2.mk di 0 0 dj)).c
            (g.conjT.mul (M2.mk di 0 0 dj)).d).transpose).d).mul
        (givens_matrix_elements_left (g.conjT.mul (M2.mk di 0 0 dj)).c
          (g.conjT.mul (M2.mk di 0 0 dj)).d).conj ∧
    (M2.mul (g.conjT.mul (M2.mk di 0 0 dj))
        (givens_matrix_elements_left (g.conjT.mul (M2.mk di 0 0 dj)).c
          (g.conjT.mul (M2.mk di 0 0 dj)).d).transpose).a *
      star (M2.mul (g.conjT.mul (M2.mk di 0 0 dj))
        (givens_matrix_elements_left (g.conjT.mul (M2.mk di 0 0 dj)).c
          (g.conjT.mul (M2.mk di 0 0 dj)).d).transpose).a = 1 ∧
    (M2.mul (g.conjT.mul (M2.mk di 0 0 dj))
        (givens_matrix_elements_left (g.conjT.mul (M2.mk di 0 0 dj)).c
          (g.conjT.mul (M2.mk di 0 0 dj)).d).transpose).d *
      star (M2.mul (g.conjT.mul (M2.mk di 0 0 dj))
        (givens_matrix_elements_left (g.conjT.mul (M2.mk di 0 0 dj)).c
          (g.conjT.mul (M2.mk di 0 0 dj)).d).transpose).d = 1 := by
  set Mtd := g.conjT.mul (M2.mk di 0 0 dj) with hMtddef
  set gn := givens_matrix_elements_left Mtd.c Mtd.d with hgndef
  set np := M2.mul Mtd gn.transpose with hnpdef
  have hMtd : Mtd.unitary :=
    M2.mul_unitary (M2.conjT_unitary hg) (diag2_unitary hdi hdj)
  have hgn : gn.unitary := gme_left_unitary _ _
  have hnp : np.unitary := M2.mul_unitary hMtd (M2.transpose_unitary hgn)
  have hc : np.c = 0 := by
    have hz := gme_left_zeroes Mtd.c Mtd.d
    rw [← hgndef] at hz
    show (M2.mul Mtd gn.transpose).c = 0
    simp only [M2.mul, M2.transpose]
    linear_combination hz
  obtain ⟨hb, hnpa, hnpd⟩ := M2.unitary_c_zero hnp hc
  refine ⟨hb, hc, ?_, hnpa, hnpd⟩
  have hcheck : np.mul gn.conj = Mtd := mig_check_holds Mtd gn hgn
  have hnp_eq : M2.mk np.a 0 0 np.d = np := by
    ext
    · rfl
    · exact hb.symm
    · exact hc.symm
    · rfl
  rw [hnp_eq]
  exact hcheck.symm

/-- One migration step as an `N×N` matrix identity: pulling the diagonal
phases through the adjoint of a recorded left rotation leaves the updated
diagonal times the re-decomposed rotation. -/
lemma migStepU_matrix {N : ℕ} (st : MigState) (g : M2) (i j : ℕ)
    (hg : g.unitary) (hij : i ≠ j) (hiN : i < N) (hjN : j < N)
    (hd : ∀ k, k < N → st.d k * star (st.d k) = 1) :
    planeMatN N g.conjT i j *
        Matrix.diagonal (fun k : Fin N => st.d (k : ℕ)) =
      Matrix.diagonal (fun k : Fin N => (migStepU st (g, i, j)).d (k : ℕ)) *
        planeMatN N
          (givens_matrix_elements_left
            ((g.conjT.mul (M2.mk (st.d i) 0 0 (st.d j))).c)
            ((g.conjT.mul (M2.mk (st.d i) 0 0 (st.d j))).d)).conj i j ∧
    ∀ k, k < N →
      (migStepU st (g, i, j)).d k * star ((migStepU st (g, i, j)).d k) = 1 := by
  obtain ⟨hb, hc, heq, hna, hnd⟩ :=
    mig_step_2x2 g hg (st.d i) (st.d j) (hd i hiN) (hd j hjN)
  set Mtd := g.conjT.mul (M2.mk (st.d i) 0 0 (st.d j)) with hMtddef
  set gn := givens_matrix_elements_left Mtd.c Mtd.d with hgndef
  set np := M2.mul Mtd gn.transpose with hnpdef
  have hstep : (migStepU st (g, i, j)).d =
      Function.update (Function.update st.d i np.a) j np.d := rfl
  have hd'i : (migStepU st (g, i, j)).d i = np.a := by
    rw [hstep, Function.update_noteq hij, Function.update_same]
  have hd'j : (migStepU st (g, i, j)).d j = np.d := by
    rw [hstep, Function.update_same]
  have hd'o : ∀ k, k ≠ i → k ≠ j → (migStepU st (g, i, j)).d k = st.d k := by
    intro k hki hkj
    rw [hstep, Function.update_noteq hkj, Function.update_noteq hki]
  have eA : Mtd.a = np.a * gn.conj.a := by
    have h := congrArg M2.a heq
    simpa [M2.mul] using h
  have eB : Mtd.b = np.a * gn.conj.b := by
    have h := congrArg M2.b heq
    simpa [M2.mul] using h
  have eC : Mtd.c = np.d * gn.conj.c := by
    have h := congrArg M2.c heq
    simpa [M2.mul] using h
  have eD : Mtd.d = np.d * gn.conj.d := by
    have h := congrArg M2.d heq
    simpa [M2.mul] using h
  have mA : Mtd.a = g.conjT.a * st.d i := by
    rw [hMtddef]; simp [M2.mul]
  have mB : Mtd.b = g.conjT.b * st.d j := by
    rw [hMtddef]; simp [M2.mul]
  have mC : Mtd.c = g.conjT.c * st.d i := by
    rw [hMtddef]; simp [M2.mul]
  have mD : Mtd.d = g.conjT.d * st.d j := by
    rw [hMtddef]; simp [M2.mul]
  constructor
  · ext r c
    rw [planeMatN_pos _ hiN hjN hij, planeMatN_pos _ hiN hjN hij,
      Matrix.mul_diagonal, Matrix.diagonal_mul]
    have hne := fin_mk_ne hiN hjN hij
    by_cases hri : r = ⟨i, hiN⟩
    · rw [hri, planeMat_row_i _ _ _ hne c, planeMat_row_i _ _ _ hne c]
      show _ = (migStepU st (g, i, j)).d i * _
      rw [hd'i]
      by_cases hci : c = ⟨i, hiN⟩
      · rw [hci]
        simp only [if_pos rfl, if_neg hne, add_zero]
        show g.conjT.a * st.d i = np.a * gn.conj.a
        rw [← mA]; exact eA
      · by_cases hcj : c = ⟨j, hjN⟩
        · rw [hcj]
          simp only [if_neg (Ne.symm hne), if_pos rfl, zero_add]
          show g.conjT.b * st.d j = np.a * gn.conj.b
          rw [← mB]; exact eB
        · simp [hci, hcj]
    · by_cases hrj : r = ⟨j, hjN⟩
      · rw [hrj, planeMat_row_j _ _ _ hne c, planeMat_row_j _ _ _ hne c]
        show _ = (migStepU st (g, i, j)).d j * _
        rw [hd'j]
        by_cases hci : c = ⟨i, hiN⟩
        · rw [hci]
          simp only [if_pos rfl, if_neg hne, add_zero]
          show g.conjT.c * st.d i = np.d * gn.conj.c
          rw [← mC]; exact eC
        · by_cases hcj : c = ⟨j, hjN⟩
          · rw [hcj]
            simp only [if_neg (Ne.symm hne), if_pos rfl, zero_add]
            show g.conjT.d * st.d j = np.d * gn.conj.d
            rw [← mD]; exact eD
          · simp [hci, hcj]
      · rw [planeMat_row_other _ _ _ r hri hrj c,
          planeMat_row_other _ _ _ r hri hrj c]
        by_cases hrc : r = c
        · rw [if_pos hrc, one_mul, mul_one, ← hrc]
          exact (hd'o (r : ℕ) (fun h => hri (Fin.ext h))
            (fun h => hrj (Fin.ext h))).symm
        · rw [if_neg hrc, zero_mul, mul_zero]
  · intro k hk
    by_cases hkj : k = j
    · rw [hkj, hd'j]; exact hnd
    · by_cases hki : k = i
      · rw [hki, hd'i]; exact hna
      · rw [hd'o k hki hkj]; exact hd k hk

/-! ### The shape of the merged rotations, with the degenerate case pinned -/

/-- The canonical shape of every 2×2 matrix in the merged rotation list:
real non-negative first column `(c, s)` with `c² + s² = 1`, a unit phase `w`
on the second column, and `w = 1` whenever `c = 0` (the degenerate branch of
the Givens construction returns the plain transposition block). -/
def MergedShape (g : M2) : Prop :=
  ∃ (cr sr : ℝ) (w : ℂ), 0 ≤ cr ∧ 0 ≤ sr ∧ cr ^ 2 + sr ^ 2 = 1 ∧
    w * star w = 1 ∧ (cr = 0 → w = 1) ∧
    g = ⟨(cr : ℂ), -((sr : ℂ) * w), (sr : ℂ), (cr : ℂ) * w⟩

/-- The conjugate of a `'left'` Givens matrix has the merged shape. -/
lemma merged_shape_gme (x y : ℂ) :
    MergedShape (givens_matrix_elements_left x y).conj := by
  unfold givens_matrix_elements_left
  by_cases hx : x = 0
  · refine ⟨1, 0, 1, by norm_num, le_refl 0, by norm_num, by norm_num,
      fun _ => rfl, ?_⟩
    rw [if_pos hx]
    ext <;> simp [M2.one, M2.conj]
  by_cases hy : y = 0
  · refine ⟨0, 1, 1, le_refl 0, by norm_num, by norm_num, by norm_num,
      fun _ => rfl, ?_⟩
    rw [if_neg hx, if_pos hy]
    ext <;> simp [M2.conj]
  have hax : (0 : ℝ) < Complex.abs x := by
    simpa [AbsoluteValue.pos_iff] using hx
  have hay : (0 : ℝ) < Complex.abs y := by
    simpa [AbsoluteValue.pos_iff] using hy
  set S : ℝ := Complex.abs x ^ 2 + Complex.abs y ^ 2 with hS
  have hSpos : 0 < S := by positivity
  have hn : csqrt ((cabs x) ^ 2 + (cabs y) ^ 2) = ((Real.sqrt S : ℝ) : ℂ) := by
    simp only [csqrt, cabs]
    norm_cast
  have hcrpos : 0 < Complex.abs y / Real.sqrt S := by positivity
  refine ⟨Complex.abs y / Real.sqrt S, Complex.abs x / Real.sqrt S,
    star ((x / cabs x) * star (y / cabs y)), by positivity, by positivity,
    ?_, ?_, fun h => absurd h hcrpos.ne', ?_⟩
  · rw [div_pow, div_pow, div_add_div_same, Real.sq_sqrt hSpos.le,
      add_comm (Complex.abs y ^ 2), ← hS, div_self hSpos.ne']
  · have h1 := sgn_mul_star_sgn x hx
    have h2 := sgn_mul_star_sgn y hy
    rw [star_star, mul_comm]
    calc (x / cabs x * star (y / cabs y)) * star (x / cabs x * star (y / cabs y))
        = ((x / cabs x) * star (x / cabs x)) * ((y / cabs y) * star (y / cabs y)) := by
          rw [star_mul', star_star]; ring
      _ = 1 := by rw [h1, h2, one_mul]
  · rw [if_neg hx, if_neg hy]
    simp only [hn]
    simp only [cabs]
    ext <;>
      simp only [M2.conj, Complex.star_def, map_neg, map_mul, map_div₀,
        Complex.conj_ofReal, Complex.conj_conj] <;>
      push_cast <;> ring

/-! ### The migration loop as a pure recursion -/

/-- The phase-migration loop as a structural recursion on the processed list
(which is the reversed record of left rotations): returns the final diagonal
phases and the re-decomposed rotations in processing order. -/
def migCore : List (M2 × ℕ × ℕ) → (ℕ → ℂ) → (ℕ → ℂ) × List (M2 × ℕ × ℕ)
  | [], d => (d, [])
  | r :: rs, d =>
    let st := migStepU ⟨d, []⟩ r
    let rest := migCore rs st.d
    (rest.1, st.newLefts ++ rest.2)

lemma foldl_migStepU (l : List (M2 × ℕ × ℕ)) (d : ℕ → ℂ)
    (acc : List (M2 × ℕ × ℕ)) :
    l.foldl migStepU ⟨d, acc⟩ =
      ⟨(migCore l d).1, acc ++ (migCore l d).2⟩ := by
  induction l generalizing d acc with
  | nil => simp [migCore]
  | cons r rs ih =>
    rw [List.foldl_cons]
    have hstep : migStepU ⟨d, acc⟩ r =
        ⟨(migStepU ⟨d, ([] : List (M2 × ℕ × ℕ))⟩ r).d,
          acc ++ (migStepU ⟨d, ([] : List (M2 × ℕ × ℕ))⟩ r).newLefts⟩ := rfl
    rw [hstep, ih]
    show _ = (⟨(migCore (r :: rs) d).1, acc ++ (migCore (r :: rs) d).2⟩ : MigState)
    rw [migCore]
    simp [List.append_assoc]

/-- The migration loop agrees with its pure recursion. -/
lemma migRunU_eq_migCore (lefts : List (M2 × ℕ × ℕ)) (d0 : ℕ → ℂ) :
    migRunU lefts d0 =
      ⟨(migCore lefts.reverse d0).1, (migCore lefts.reverse d0).2⟩ := by
  unfold migRunU
  rw [foldl_migStepU]
  simp

/-- The migration preserves the index pairs of the recorded rotations. -/
lemma migCore_pairs (rl : List (M2 × ℕ × ℕ)) (d : ℕ → ℂ) :
    (migCore rl d).2.map Prod.snd = rl.map Prod.snd := by
  induction rl generalizing d with
  | nil => rfl
  | cons r rs ih =>
    rw [migCore]
    simp only [migStepU, List.append_eq, List.nil_append, List.map_append,
      List.map_cons, List.map_nil, List.map]
    rw [ih]

/-! ### The three ordered products of plane rotations -/

/-- The diagonal matrix of the first `N` working phases. -/
def diagFin (N : ℕ) (d : ℕ → ℂ) : Matrix (Fin N) (Fin N) ℂ :=
  Matrix.diagonal fun k : Fin N => d (k : ℕ)

/-- Product of the adjoints of recorded rotations, earliest leftmost. -/
def prodAdj (N : ℕ) (l : List (M2 × ℕ × ℕ)) : Matrix (Fin N) (Fin N) ℂ :=
  l.foldr (fun r acc => acc * planeMatN N r.1.conjT r.2.1 r.2.2) 1

/-- Product of recorded rotations, earliest rightmost. -/
def prodHat (N : ℕ) (l : List (M2 × ℕ × ℕ)) : Matrix (Fin N) (Fin N) ℂ :=
  l.foldr (fun r acc => acc * planeMatN N r.1 r.2.1 r.2.2) 1

/-- Product of recorded rotations in plain list order. -/
def prodMerged (N : ℕ) (l : List (M2 × ℕ × ℕ)) : Matrix (Fin N) (Fin N) ℂ :=
  l.foldr (fun r acc => planeMatN N r.1 r.2.1 r.2.2 * acc) 1

lemma prodAdj_cons (N : ℕ) (r : M2 × ℕ × ℕ) (l : List (M2 × ℕ × ℕ)) :
    prodAdj N (r :: l) = prodAdj N l * planeMatN N r.1.conjT r.2.1 r.2.2 := rfl

lemma prodHat_cons (N : ℕ) (r : M2 × ℕ × ℕ) (l : List (M2 × ℕ × ℕ)) :
    prodHat N (r :: l) = prodHat N l * planeMatN N r.1 r.2.1 r.2.2 := rfl

lemma prodMerged_cons (N : ℕ) (r : M2 × ℕ × ℕ) (l : List (M2 × ℕ × ℕ)) :
    prodMerged N (r :: l) = planeMatN N r.1 r.2.1 r.2.2 * prodMerged N l := rfl

lemma prodMerged_append (N : ℕ) (l1 l2 : List (M2 × ℕ × ℕ)) :
    prodMerged N (l1 ++ l2) = prodMerged N l1 * prodMerged N l2 := by
  induction l1 with
  | nil => simp [prodMerged]
  | cons r rs ih =>
    rw [List.cons_append, prodMerged_cons, prodMerged_cons, ih, mul_assoc]

lemma prodMerged_reverse (N : ℕ) (l : List (M2 × ℕ × ℕ)) :
    prodMerged N l.reverse = prodHat N l := by
  induction l with
  | nil => rfl
  | cons r rs ih =>
    rw [List.reverse_cons, prodMerged_append, ih, prodHat_cons]
    rw [prodMerged_cons]
    show prodHat N rs * (planeMatN N r.1 r.2.1 r.2.2 * 1) = _
    rw [mul_one]

/-- The full migration as a matrix identity: the product of the adjoints of
the recorded left rotations (earliest leftmost), times the diagonal of the
working phases, equals the updated diagonal times the product of the
re-decomposed rotations; the working phases stay unimodular throughout. -/
lemma migCore_product {N : ℕ} (rl : List (M2 × ℕ × ℕ)) (d : ℕ → ℂ)
    (hp : ∀ r ∈ rl, r.1.unitary ∧ r.2.1 + 1 = r.2.2 ∧ r.2.2 < N)
    (hd : ∀ k, k < N → d k * star (d k) = 1) :
    prodAdj N rl * diagFin N d =
      diagFin N (migCore rl d).1 * prodHat N (migCore rl d).2 ∧
    ∀ k, k < N → (migCore rl d).1 k * star ((migCore rl d).1 k) = 1 := by
  induction rl generalizing d with
  | nil =>
    refine ⟨?_, hd⟩
    show (1 : Matrix (Fin N) (Fin N) ℂ) * diagFin N d = diagFin N d * 1
    rw [one_mul, mul_one]
  | cons r rs ih =>
    obtain ⟨hru, hpair, hjN⟩ := hp r (by simp)
    have hiN : r.2.1 < N := by omega
    have hij : r.2.1 ≠ r.2.2 := by omega
    obtain ⟨hmat, hmod⟩ :=
      migStepU_matrix ⟨d, []⟩ r.1 r.2.1 r.2.2 hru hij hiN hjN hd
    have hmat' : planeMatN N r.1.conjT r.2.1 r.2.2 * diagFin N d =
        diagFin N (migStepU ⟨d, []⟩ r).d *
          planeMatN N
            ((migStepU ⟨d, []⟩ r).newLefts.headI).1
            ((migStepU ⟨d, []⟩ r).newLefts.headI).2.1
            ((migStepU ⟨d, []⟩ r).newLefts.headI).2.2 := hmat
    have hmod' : ∀ k, k < N →
        (migStepU ⟨d, []⟩ r).d k * star ((migStepU ⟨d, []⟩ r).d k) = 1 := hmod
    obtain ⟨ihmat, ihmod⟩ := ih (migStepU ⟨d, []⟩ r).d
      (fun x hx => hp x (by simp [hx])) hmod'
    have hcore1 : (migCore (r :: rs) d).1 =
        (migCore rs (migStepU ⟨d, []⟩ r).d).1 := rfl
    have hcore2 : (migCore (r :: rs) d).2 =
        (migStepU ⟨d, []⟩ r).newLefts.headI ::
          (migCore rs (migStepU ⟨d, []⟩ r).d).2 := rfl
    constructor
    · rw [hcore1, hcore2, prodAdj_cons, prodHat_cons]
      calc prodAdj N rs * planeMatN N r.1.conjT r.2.1 r.2.2 * diagFin N d
          = prodAdj N rs *
              (planeMatN N r.1.conjT r.2.1 r.2.2 * diagFin N d) := by
            rw [mul_assoc]
        _ = prodAdj N rs *
              (diagFin N (migStepU ⟨d, []⟩ r).d *
                planeMatN N ((migStepU ⟨d, []⟩ r).newLefts.headI).1
                  ((migStepU ⟨d, []⟩ r).newLefts.headI).2.1
                  ((migStepU ⟨d, []⟩ r).newLefts.headI).2.2) := by rw [hmat']
        _ = prodAdj N rs * diagFin N (migStepU ⟨d, []⟩ r).d *
              planeMatN N ((migStepU ⟨d, []⟩ r).newLefts.headI).1
                ((migStepU ⟨d, []⟩ r).newLefts.headI).2.1
                ((migStepU ⟨d, []⟩ r).newLefts.headI).2.2 := by rw [mul_assoc]
        _ = diagFin N (migCore rs (migStepU ⟨d, []⟩ r).d).1 *
              prodHat N (migCore rs (migStepU ⟨d, []⟩ r).d).2 *
              planeMatN N ((migStepU ⟨d, []⟩ r).newLefts.headI).1
                ((migStepU ⟨d, []⟩ r).newLefts.headI).2.1
                ((migStepU ⟨d, []⟩ r).newLefts.headI).2.2 := by rw [ihmat]
        _ = diagFin N (migCore rs (migStepU ⟨d, []⟩ r).d).1 *
              (prodHat N (migCore rs (migStepU ⟨d, []⟩ r).d).2 *
                planeMatN N ((migStepU ⟨d, []⟩ r).newLefts.headI).1
                  ((migStepU ⟨d, []⟩ r).newLefts.headI).2.1
                  ((migStepU ⟨d, []⟩ r).newLefts.headI).2.2) := by
            rw [mul_assoc]
    · rw [hcore1]
      exact ihmod

/-! ### Provenance with bounds, and inverse products -/

/-- A recorded rotation is good for size `N`: its matrix is unitary and it
acts on an adjacent in-range index pair. -/
def GoodRec (N : ℕ) (r : M2 × ℕ × ℕ) : Prop :=
  r.1.unitary ∧ r.2.1 + 1 = r.2.2 ∧ r.2.2 < N

/-- Full provenance of the elimination records: the matrix shapes together
with the adjacency and range of the recorded index pairs. -/
lemma elimRun_provenance_strong (N : ℕ) (U0 : CMat) :
    (∀ r ∈ (elimRun N U0).rights,
        (∃ x y, r.1 = (givens_matrix_elements_left x y).transpose) ∧
          r.2.1 + 1 = r.2.2 ∧ r.2.2 < N) ∧
    (∀ r ∈ (elimRun N U0).lefts,
        (∃ x y, r.1 = givens_matrix_elements_right x y) ∧
          r.2.1 + 1 = r.2.2 ∧ r.2.2 < N) := by
  have hok := elimSeq_ok N
  unfold elimRun
  suffices h : ∀ (l : List ElimStep) (st : ElimState),
      (∀ s ∈ l, s.ok N) →
      (∀ r ∈ st.rights,
          (∃ x y, r.1 = (givens_matrix_elements_left x y).transpose) ∧
            r.2.1 + 1 = r.2.2 ∧ r.2.2 < N) →
      (∀ r ∈ st.lefts,
          (∃ x y, r.1 = givens_matrix_elements_right x y) ∧
            r.2.1 + 1 = r.2.2 ∧ r.2.2 < N) →
      (∀ r ∈ (l.foldl elimStepApply st).rights,
          (∃ x y, r.1 = (givens_matrix_elements_left x y).transpose) ∧
            r.2.1 + 1 = r.2.2 ∧ r.2.2 < N) ∧
      (∀ r ∈ (l.foldl elimStepApply st).lefts,
          (∃ x y, r.1 = givens_matrix_elements_right x y) ∧
            r.2.1 + 1 = r.2.2 ∧ r.2.2 < N) by
    exact h (elimSeq N) ⟨U0, [], []⟩ hok (by simp) (by simp)
  intro l
  induction l with
  | nil => intro st _ h1 h2; exact ⟨h1, h2⟩
  | cons s ss ih =>
    intro st hokl h1 h2
    rw [List.foldl_cons]
    have hs := hokl s (by simp)
    have hss : ∀ s' ∈ ss, s'.ok N := fun s' hs' => hokl s' (by simp [hs'])
    cases s with
    | colStep r C =>
      obtain ⟨-, hC, -⟩ := hs
      refine ih _ hss ?_ ?_
      · intro rr hrr
        simp only [elimStepApply, List.mem_append] at hrr
        rcases hrr with h | h
        · exact h1 rr h
        · rcases List.mem_singleton.1 h with rfl
          exact ⟨⟨_, _, rfl⟩, rfl, hC⟩
      · intro rr hrr
        simp only [elimStepApply] at hrr
        exact h2 rr hrr
    | rowStep R c =>
      obtain ⟨hR, hR1, -⟩ := hs
      refine ih _ hss ?_ ?_
      · intro rr hrr
        simp only [elimStepApply] at hrr
        exact h1 rr hrr
      · intro rr hrr
        simp only [elimStepApply, List.mem_append] at hrr
        rcases hrr with h | h
        · exact h2 rr h
        · rcases List.mem_singleton.1 h with rfl
          refine ⟨⟨_, _, rfl⟩, ?_, hR⟩
          show R - 1 + 1 = R
          omega

/-- Every recorded right rotation is good. -/
lemma elimRun_rights_good (N : ℕ) (U0 : CMat) :
    ∀ r ∈ (elimRun N U0).rights, GoodRec N r := by
  intro r hr
  obtain ⟨⟨x, y, hxy⟩, hp, hb⟩ := (elimRun_provenance_strong N U0).1 r hr
  exact ⟨hxy ▸ M2.transpose_unitary (gme_left_unitary x y), hp, hb⟩

/-- Every recorded left rotation is good. -/
lemma elimRun_lefts_good (N : ℕ) (U0 : CMat) :
    ∀ r ∈ (elimRun N U0).lefts, GoodRec N r := by
  intro r hr
  obtain ⟨⟨x, y, hxy⟩, hp, hb⟩ := (elimRun_provenance_strong N U0).2 r hr
  exact ⟨hxy ▸ gme_right_unitary x y, hp, hb⟩

lemma star_planeMatN {N : ℕ} (g : M2) {i j : ℕ} (hi : i < N) (hj : j < N)
    (hij : i ≠ j) : star (planeMatN N g i j) = planeMatN N g.conjT i j := by
  rw [planeMatN_pos g hi hj hij, planeMatN_pos g.conjT hi hj hij]
  show (planeMat N g ⟨i, hi⟩ ⟨j, hj⟩).conjTranspose = _
  exact planeMat_conjTranspose _ _ _ (fin_mk_ne hi hj hij)

/-- The adjoint of the left product is the product of adjoints, earliest
leftmost. -/
lemma star_ProdL (N : ℕ) (l : List (M2 × ℕ × ℕ))
    (h : ∀ r ∈ l, GoodRec N r) :
    star (ProdL N l) = prodAdj N l.reverse := by
  induction l using List.reverseRecOn with
  | nil => simp [ProdL, prodAdj]
  | append_singleton l p ih =>
    obtain ⟨hu, hpair, hjN⟩ := h p (by simp)
    have hiN : p.2.1 < N := by omega
    have hij : p.2.1 ≠ p.2.2 := by omega
    rw [ProdL_append_single, star_mul, ih fun r hr => h r (by simp [hr]),
      star_planeMatN _ hiN hjN hij]
    have hrev : (l ++ [p]).reverse = p :: l.reverse := by simp
    rw [hrev, prodAdj_cons]

/-- The adjoint of the right product is the conjugate-transposed record
product in reverse order. -/
lemma star_ProdR (N : ℕ) (l : List (M2 × ℕ × ℕ))
    (h : ∀ r ∈ l, GoodRec N r) :
    star (ProdR N l) =
      prodMerged N (l.reverse.map fun x => (x.1.conjT, x.2)) := by
  induction l using List.reverseRecOn with
  | nil => simp [ProdR, prodMerged]
  | append_singleton l p ih =>
    obtain ⟨hu, hpair, hjN⟩ := h p (by simp)
    have hiN : p.2.1 < N := by omega
    have hij : p.2.1 ≠ p.2.2 := by omega
    rw [ProdR_append_single, star_mul, ih fun r hr => h r (by simp [hr]),
      star_planeMatN _ hiN hjN hij]
    have hrev : ((l ++ [p]).reverse.map fun x => (x.1.conjT, x.2)) =
        (p.1.conjT, p.2) :: (l.reverse.map fun x => (x.1.conjT, x.2)) := by
      simp
    rw [hrev, prodMerged_cons]

/-- The product of adjoints inverts the left product. -/
lemma prodAdj_reverse_mul_ProdL (N : ℕ) (l : List (M2 × ℕ × ℕ))
    (h : ∀ r ∈ l, GoodRec N r) :
    prodAdj N l.reverse * ProdL N l = 1 := by
  induction l using List.reverseRecOn with
  | nil => simp [ProdL, prodAdj]
  | append_singleton l p ih =>
    obtain ⟨hu, hpair, hjN⟩ := h p (by simp)
    have hiN : p.2.1 < N := by omega
    have hij : p.2.1 ≠ p.2.2 := by omega
    have hrev : (l ++ [p]).reverse = p :: l.reverse := by simp
    rw [hrev, prodAdj_cons, ProdL_append_single]
    have key : planeMatN N p.1.conjT p.2.1 p.2.2 *
        planeMatN N p.1 p.2.1 p.2.2 = 1 := by
      rw [← star_planeMatN _ hiN hjN hij,
        planeMatN_pos _ hiN hjN hij]
      exact planeMat_star_mul_self _ _ hu (fin_mk_ne hiN hjN hij)
    calc prodAdj N l.reverse * planeMatN N p.1.conjT p.2.1 p.2.2 *
          (planeMatN N p.1 p.2.1 p.2.2 * ProdL N l)
        = prodAdj N l.reverse *
            (planeMatN N p.1.conjT p.2.1 p.2.2 *
              planeMatN N p.1 p.2.1 p.2.2) * ProdL N l := by
          simp only [mul_assoc]
      _ = prodAdj N l.reverse * ProdL N l := by rw [key, mul_one]
      _ = 1 := ih fun r hr => h r (by simp [hr])

/-- The conjugate-transposed record product inverts the right product. -/
lemma ProdR_mul_conj (N : ℕ) (l : List (M2 × ℕ × ℕ))
    (h : ∀ r ∈ l, GoodRec N r) :
    ProdR N l * prodMerged N (l.reverse.map fun x => (x.1.conjT, x.2)) = 1 := by
  induction l using List.reverseRecOn with
  | nil => simp [ProdR, prodMerged]
  | append_singleton l p ih =>
    obtain ⟨hu, hpair, hjN⟩ := h p (by simp)
    have hiN : p.2.1 < N := by omega
    have hij : p.2.1 ≠ p.2.2 := by omega
    have hrev : ((l ++ [p]).reverse.map fun x => (x.1.conjT, x.2)) =
        (p.1.conjT, p.2) :: (l.reverse.map fun x => (x.1.conjT, x.2)) := by
      simp
    rw [hrev, prodMerged_cons, ProdR_append_single]
    have key : planeMatN N p.1 p.2.1 p.2.2 *
        planeMatN N p.1.conjT p.2.1 p.2.2 = 1 := by
      rw [← star_planeMatN _ hiN hjN hij,
        planeMatN_pos _ hiN hjN hij]
      exact planeMat_mul_self_star _ _ hu (fin_mk_ne hiN hjN hij)
    calc ProdR N l * planeMatN N p.1 p.2.1 p.2.2 *
          (planeMatN N p.1.conjT p.2.1 p.2.2 *
            prodMerged N (l.reverse.map fun x => (x.1.conjT, x.2)))
        = ProdR N l *
            (planeMatN N p.1 p.2.1 p.2.2 *
              planeMatN N p.1.conjT p.2.1 p.2.2) *
            prodMerged N (l.reverse.map fun x => (x.1.conjT, x.2)) := by
          simp only [mul_assoc]
      _ = ProdR N l *
            prodMerged N (l.reverse.map fun x => (x.1.conjT, x.2)) := by
          rw [key, mul_one]
      _ = 1 := ih fun r hr => h r (by simp [hr])

/-! ### Matrices of the emitted gates -/

/-- Modelled from the spec: the single-particle (one-excitation sector)
matrix of an emitted gate on qubits laid out by position.
A Z-phase gate with exponent `t` on qubit `q` multiplies the
amplitude on mode `q` by `exp(iπt)`; the two-qubit `Ryxxy(rads)` rotation
acts on the modes of its two qubits by the rotation block
`[[cos rads, sin rads], [−sin rads, cos rads]]`.  Out-of-range or
coincident qubit indices give the identity. -/
def gopMat (N : ℕ) : GOp ℕ → Matrix (Fin N) (Fin N) ℂ
  | .zpow t q =>
    if h : q < N then
      Matrix.diagonal fun k : Fin N =>
        if k = ⟨q, h⟩ then Complex.exp (Real.pi * t * Complex.I) else 1
    else 1
  | .ryxxy rads i j =>
    planeMatN N
      ⟨(Real.cos rads : ℂ), (Real.sin rads : ℂ),
        -(Real.sin rads : ℂ), (Real.cos rads : ℂ)⟩ i j

/-- The single-particle matrix of an emitted circuit: operations compose in
application order, a later operation acting on the left. -/
def circuitMat (N : ℕ) (ops : List (GOp ℕ)) : Matrix (Fin N) (Fin N) ℂ :=
  ops.foldl (fun acc op => gopMat N op * acc) 1

lemma circuitMat_foldl (N : ℕ) (ops : List (GOp ℕ))
    (A : Matrix (Fin N) (Fin N) ℂ) :
    ops.foldl (fun acc op => gopMat N op * acc) A = circuitMat N ops * A := by
  induction ops generalizing A with
  | nil =>
    show A = 1 * A
    rw [one_mul]
  | cons op ops ih =>
    rw [List.foldl_cons, ih (gopMat N op * A)]
    show _ = List.foldl (fun acc op => gopMat N op * acc) 1 (op :: ops) * A
    rw [List.foldl_cons, ih (gopMat N op * 1), mul_one, mul_assoc]

lemma circuitMat_append (N : ℕ) (l1 l2 : List (GOp ℕ)) :
    circuitMat N (l1 ++ l2) = circuitMat N l2 * circuitMat N l1 := by
  show List.foldl _ 1 (l1 ++ l2) = _
  rw [List.foldl_append, circuitMat_foldl]
  rfl

lemma circuitMat_single (N : ℕ) (op : GOp ℕ) :
    circuitMat N [op] = gopMat N op := by
  show gopMat N op * 1 = gopMat N op
  rw [mul_one]

/-- A list of Z-phase gates on distinct in-range qubits composes to the
corresponding diagonal matrix. -/
lemma circuitMat_zpows (N : ℕ) (t : ℕ → ℝ) (l : List ℕ)
    (hl : ∀ q ∈ l, q < N) (hnd : l.Nodup) :
    circuitMat N (l.map fun idx => GOp.zpow (t idx) idx) =
      Matrix.diagonal fun k : Fin N =>
        if (k : ℕ) ∈ l then Complex.exp (Real.pi * t (k : ℕ) * Complex.I)
        else 1 := by
  induction l with
  | nil =>
    show (1 : Matrix (Fin N) (Fin N) ℂ) = _
    simp
  | cons q l ih =>
    have hqN : q < N := hl q (by simp)
    have hql : q ∉ l := (List.nodup_cons.1 hnd).1
    rw [List.map_cons, show (GOp.zpow (t q) q :: l.map fun idx =>
        GOp.zpow (t idx) idx) = [GOp.zpow (t q) q] ++ l.map fun idx =>
        GOp.zpow (t idx) idx from rfl,
      circuitMat_append, circuitMat_single,
      ih (fun q' hq' => hl q' (by simp [hq'])) (List.nodup_cons.1 hnd).2]
    show _ * (if h : q < N then _ else _) = _
    rw [dif_pos hqN, Matrix.diagonal_mul_diagonal]
    refine congrArg Matrix.diagonal (funext fun k => ?_)
    by_cases hk : k = ⟨q, hqN⟩
    · have hkq : (k : ℕ) = q := by rw [hk]
      rw [if_pos hk, if_neg (by rw [hkq]; exact hql),
        if_pos (by simp [hkq]), one_mul, hkq]
    · have hkq : (k : ℕ) ≠ q := fun h => hk (Fin.ext h)
      rw [if_neg hk, mul_one]
      by_cases hkl : (k : ℕ) ∈ l
      · rw [if_pos hkl, if_pos (by simp [hkl])]
      · rw [if_neg hkl, if_neg (by simp [hkq, hkl])]

/-- Multiplying a plane rotation by a diagonal matrix supported on its two
active modes scales its two columns. -/
lemma planeMat_mul_diag {N : ℕ} (g : M2) (i j : Fin N) (hij : i ≠ j)
    (d : Fin N → ℂ) (hd : ∀ k, k ≠ i → k ≠ j → d k = 1) :
    planeMat N g i j * Matrix.diagonal d =
      planeMat N (M2.mk (g.a * d i) (g.b * d j) (g.c * d i) (g.d * d j))
        i j := by
  ext r c
  rw [Matrix.mul_diagonal]
  by_cases hri : r = i
  · rw [hri, planeMat_row_i _ _ _ hij c, planeMat_row_i _ _ _ hij c]
    by_cases hci : c = i
    · rw [hci]
      simp [hij]
    · by_cases hcj : c = j
      · rw [hcj]
        simp [Ne.symm hij]
      · simp [hci, hcj]
  · by_cases hrj : r = j
    · rw [hrj, planeMat_row_j _ _ _ hij c, planeMat_row_j _ _ _ hij c]
      by_cases hci : c = i
      · rw [hci]
        simp [hij]
      · by_cases hcj : c = j
        · rw [hcj]
          simp [Ne.symm hij]
        · simp [hci, hcj]
    · rw [planeMat_row_other _ _ _ r hri hrj c,
        planeMat_row_other _ _ _ r hri hrj c]
      by_cases hrc : r = c
      · rw [if_pos hrc, one_mul]
        exact hd c (fun h => hri (hrc.trans h)) (fun h => hrj (hrc.trans h))
      · rw [if_neg hrc, zero_mul]

/-- The operations emitted for one merged rotation compose exactly to the
plane rotation of its 2×2 matrix: the `Ryxxy(−θ)` block times the optional
`Z**(φ/π)` phase reconstructs `[[c, −s·w], [s, c·w]]`. -/
lemma circuit_emit_merged (N : ℕ) (m : M2 × ℕ × ℕ) (hshape : MergedShape m.1)
    (hpair : m.2.1 + 1 = m.2.2) (hjN : m.2.2 < N) :
    circuitMat N (emitRotation (fun k => k) (rotParam m)) =
      planeMatN N m.1 m.2.1 m.2.2 := by
  obtain ⟨cr, sr, w, hcr, hsr, hcs, hw, hdeg, hm⟩ := hshape
  have hiN : m.2.1 < N := by omega
  have hij : m.2.1 ≠ m.2.2 := by omega
  have hsr1 : sr ≤ 1 := by nlinarith
  have hsrm : (-1 : ℝ) ≤ sr := by linarith
  have hsin : Real.sin (Real.arcsin sr) = sr := Real.sin_arcsin hsrm hsr1
  have hcos : Real.cos (Real.arcsin sr) = cr := by
    rw [Real.cos_arcsin]
    have h1 : 1 - sr ^ 2 = cr ^ 2 := by linarith
    rw [h1, Real.sqrt_sq hcr]
  have habsw : Complex.abs w = 1 := by
    have h1 : w * (starRingEnd ℂ) w = ((Complex.normSq w : ℝ) : ℂ) :=
      Complex.mul_conj w
    rw [Complex.star_def, h1] at hw
    have h2 : Complex.normSq w = 1 := by exact_mod_cast hw
    rw [Complex.abs_apply, h2, Real.sqrt_one]
  have hc : m.1.c = (sr : ℂ) := by rw [hm]
  have hd : m.1.d = (cr : ℂ) * w := by rw [hm]
  have hptheta : (rotParam m).theta = Real.arcsin sr := by
    show Real.arcsin m.1.c.re = Real.arcsin sr
    rw [hc, Complex.ofReal_re]
  have hpphi : (rotParam m).phi = Complex.arg ((cr : ℂ) * w) := by
    show Complex.arg m.1.d = _
    rw [hd]
  have habscw : Complex.abs ((cr : ℂ) * w) = cr := by
    rw [map_mul, habsw, mul_one, Complex.abs_ofReal, abs_of_nonneg hcr]
  by_cases hphi0 : (rotParam m).phi = 0
  · have hw1 : w = 1 := by
      by_cases hcr0 : cr = 0
      · exact hdeg hcr0
      · have h0 : Complex.arg ((cr : ℂ) * w) = 0 := by
          rw [← hpphi]; exact hphi0
        have hz := Complex.abs_mul_exp_arg_mul_I ((cr : ℂ) * w)
        rw [h0, Complex.ofReal_zero, zero_mul, Complex.exp_zero, mul_one,
          habscw] at hz
        have hcr0' : ((cr : ℝ) : ℂ) ≠ 0 := by exact_mod_cast hcr0
        calc w = ((cr : ℂ))⁻¹ * ((cr : ℂ) * w) := by
              rw [← mul_assoc, inv_mul_cancel₀ hcr0', one_mul]
          _ = 1 := by rw [← hz, inv_mul_cancel₀ hcr0']
    have hblk : (⟨(Real.cos (-(rotParam m).theta) : ℂ),
        (Real.sin (-(rotParam m).theta) : ℂ),
        -(Real.sin (-(rotParam m).theta) : ℂ),
        (Real.cos (-(rotParam m).theta) : ℂ)⟩ : M2) = m.1 := by
      rw [hm, hw1]
      ext <;>
        simp [hptheta, Real.cos_neg, Real.sin_neg, hcos, hsin]
    show circuitMat N ((if (rotParam m).phi = 0 then [] else _) ++ _) = _
    rw [if_pos hphi0, List.nil_append, circuitMat_single]
    show planeMatN N _ m.2.1 m.2.2 = _
    rw [hblk]
  · have hcr0 : cr ≠ 0 := by
      intro h0
      apply hphi0
      rw [hpphi, h0, hdeg h0]
      norm_num
    have hcr0' : ((cr : ℝ) : ℂ) ≠ 0 := by exact_mod_cast hcr0
    have hexp : Complex.exp (((rotParam m).phi : ℝ) * Complex.I) = w := by
      have hz := Complex.abs_mul_exp_arg_mul_I ((cr : ℂ) * w)
      rw [habscw, ← hpphi] at hz
      calc Complex.exp (((rotParam m).phi : ℝ) * Complex.I)
          = ((cr : ℂ))⁻¹ *
              ((cr : ℂ) * Complex.exp (((rotParam m).phi : ℝ) * Complex.I)) := by
            rw [← mul_assoc, inv_mul_cancel₀ hcr0', one_mul]
        _ = ((cr : ℂ))⁻¹ * ((cr : ℂ) * w) := by rw [hz]
        _ = w := by rw [← mul_assoc, inv_mul_cancel₀ hcr0', one_mul]
    have hpit : ((Real.pi : ℂ)) * (((rotParam m).phi / Real.pi : ℝ) : ℂ) =
        (((rotParam m).phi : ℝ) : ℂ) := by
      have hpin : ((Real.pi : ℝ) : ℂ) ≠ 0 := by
        exact_mod_cast Real.pi_ne_zero
      push_cast
      field_simp
    show circuitMat N ((if (rotParam m).phi = 0 then [] else
        [GOp.zpow ((rotParam m).phi / Real.pi) m.2.2]) ++
        [GOp.ryxxy (-(rotParam m).theta) m.2.1 m.2.2]) = _
    rw [if_neg hphi0]
    rw [show ([GOp.zpow ((rotParam m).phi / Real.pi) m.2.2] ++
        [GOp.ryxxy (-(rotParam m).theta) m.2.1 m.2.2]) =
        [GOp.zpow ((rotParam m).phi / Real.pi) m.2.2] ++
        [GOp.ryxxy (-(rotParam m).theta) m.2.1 m.2.2] from rfl,
      circuitMat_append, circuitMat_single, circuitMat_single]
    show planeMatN N _ m.2.1 m.2.2 *
        (if h : m.2.2 < N then Matrix.diagonal _ else 1) = _
    rw [dif_pos hjN, planeMatN_pos _ hiN hjN hij,
      planeMat_mul_diag _ _ _ (fin_mk_ne hiN hjN hij) _
        (fun k hk1 hk2 => if_neg hk2),
      planeMatN_pos _ hiN hjN hij]
    refine congrArg (fun g => planeMat N g ⟨m.2.1, hiN⟩ ⟨m.2.2, hjN⟩) ?_
    have hif1 : (if (⟨m.2.1, hiN⟩ : Fin N) = ⟨m.2.2, hjN⟩ then
        Complex.exp ((Real.pi : ℂ) *
          (((rotParam m).phi / Real.pi : ℝ) : ℂ) * Complex.I)
      else 1) = 1 := if_neg (fin_mk_ne hiN hjN hij)
    have hif2 : (if (⟨m.2.2, hjN⟩ : Fin N) = ⟨m.2.2, hjN⟩ then
        Complex.exp ((Real.pi : ℂ) *
          (((rotParam m).phi / Real.pi : ℝ) : ℂ) * Complex.I)
      else 1) = w := by
      rw [if_pos rfl, hpit, hexp]
    rw [hif1, hif2, hm]
    ext <;>
      simp [hptheta, Real.cos_neg, Real.sin_neg, hcos, hsin] <;>
      ring

/-- The emission loop over the reversed parameter list composes to the
product of the merged rotations in list order. -/
lemma circuitMat_flatMap_merged (N : ℕ) (l : List (M2 × ℕ × ℕ))
    (h : ∀ m ∈ l, MergedShape m.1 ∧ m.2.1 + 1 = m.2.2 ∧ m.2.2 < N) :
    circuitMat N
        ((l.map rotParam).reverse.flatMap (emitRotation (fun k => k))) =
      prodMerged N l := by
  induction l with
  | nil => rfl
  | cons m ms ih =>
    obtain ⟨hs, hp, hb⟩ := h m (by simp)
    rw [List.map_cons, List.reverse_cons, List.flatMap_append,
      circuitMat_append]
    have h1 : ([rotParam m].flatMap (emitRotation (fun k => k))) =
        emitRotation (fun k => k) (rotParam m) := by simp
    rw [h1, circuit_emit_merged N m hs hp hb,
      ih fun x hx => h x (by simp [hx]), prodMerged_cons]

/-- Every rotation in the merged list has the canonical shape and acts on an
adjacent in-range index pair. -/
lemma merged_good (N : ℕ) (U0 : CMat) :
    ∀ m ∈ mergedRotations
        (migRunU (elimRun N U0).lefts fun k => (elimRun N U0).M k k).newLefts
        (elimRun N U0).rights,
      MergedShape m.1 ∧ m.2.1 + 1 = m.2.2 ∧ m.2.2 < N := by
  intro m hm
  unfold mergedRotations at hm
  rcases List.mem_append.1 hm with h | h
  · have hmem := List.mem_reverse.1 h
    obtain ⟨x, y, hxy⟩ := migRunU_provenance _ _ m hmem
    refine ⟨hxy ▸ merged_shape_gme x y, ?_⟩
    have hpairs : m.2 ∈
        ((migRunU (elimRun N U0).lefts fun k =>
          (elimRun N U0).M k k).newLefts).map Prod.snd :=
      List.mem_map_of_mem Prod.snd hmem
    have hnl : (migRunU (elimRun N U0).lefts fun k =>
        (elimRun N U0).M k k).newLefts =
        (migCore (elimRun N U0).lefts.reverse fun k =>
          (elimRun N U0).M k k).2 :=
      congrArg MigState.newLefts (migRunU_eq_migCore _ _)
    rw [hnl, migCore_pairs] at hpairs
    obtain ⟨p, hpmem, hpe⟩ := List.mem_map.1 hpairs
    obtain ⟨-, hp2, hb2⟩ :=
      elimRun_lefts_good N U0 p (List.mem_reverse.1 hpmem)
    rw [← hpe]
    exact ⟨hp2, hb2⟩
  · obtain ⟨x, hxmem, rfl⟩ := List.mem_map.1 h
    have hx := List.mem_reverse.1 hxmem
    obtain ⟨⟨a, b, hab⟩, hp2, hb2⟩ :=
      (elimRun_provenance_strong N U0).1 x hx
    refine ⟨?_, hp2, hb2⟩
    show MergedShape x.1.conjT
    rw [hab, transpose_conjT]
    exact merged_shape_gme a b

/-! ### Assembly of the round trip -/

lemma unit_abs_of_mul_star {z : ℂ} (h : z * star z = 1) :
    Complex.abs z = 1 := by
  have h1 : z * (starRingEnd ℂ) z = ((Complex.normSq z : ℝ) : ℂ) :=
    Complex.mul_conj z
  rw [Complex.star_def, h1] at h
  have h2 : Complex.normSq z = 1 := by exact_mod_cast h
  rw [Complex.abs_apply, h2, Real.sqrt_one]

lemma exp_pi_arg_div (z : ℂ) (h : Complex.abs z = 1) :
    Complex.exp ((Real.pi : ℂ) * ((Complex.arg z / Real.pi : ℝ) : ℂ) *
      Complex.I) = z := by
  have hpin : ((Real.pi : ℝ) : ℂ) ≠ 0 := by
    exact_mod_cast Real.pi_ne_zero
  have hpit : ((Real.pi : ℂ)) * ((Complex.arg z / Real.pi : ℝ) : ℂ) =
      ((Complex.arg z : ℝ) : ℂ) := by
    push_cast
    field_simp
  rw [hpit]
  have hz := Complex.abs_mul_exp_arg_mul_I z
  rw [h] at hz
  simpa using hz

/-- The heart of the round trip: on a unitary input, the full emitted
operation list composes exactly (global phase `1`) to the `N×N` input. -/
lemma roundtrip_main (N : ℕ) (U0 : CMat)
    (hU : star (restr N U0) * restr N U0 = 1) :
    circuitMat N
        ((((mergedRotations
              (migRunU (elimRun N U0).lefts fun k =>
                (elimRun N U0).M k k).newLefts
              (elimRun N U0).rights).map rotParam).reverse.flatMap
            (emitRotation (fun k => k))) ++
          (List.range N).map fun idx =>
            GOp.zpow
              (Complex.arg
                ((migRunU (elimRun N U0).lefts fun k =>
                  (elimRun N U0).M k k).d idx) / Real.pi) idx) =
      restr N U0 := by
  have hLg := elimRun_lefts_good N U0
  have hRg := elimRun_rights_good N U0
  have hPL : star (ProdL N (elimRun N U0).lefts) *
      ProdL N (elimRun N U0).lefts = 1 := by
    rw [star_ProdL N _ hLg]
    exact prodAdj_reverse_mul_ProdL N _ hLg
  have hPRr : ProdR N (elimRun N U0).rights *
      star (ProdR N (elimRun N U0).rights) = 1 := by
    rw [star_ProdR N _ hRg]
    exact ProdR_mul_conj N _ hRg
  have hPR : star (ProdR N (elimRun N U0).rights) *
      ProdR N (elimRun N U0).rights = 1 := Matrix.mul_eq_one_comm.mp hPRr
  have hFu : star (restr N (elimRun N U0).M) * restr N (elimRun N U0).M = 1 := by
    rw [elim_product, star_mul, star_mul]
    simp only [mul_assoc]
    rw [← mul_assoc (star (ProdL N (elimRun N U0).lefts))
      (ProdL N (elimRun N U0).lefts), hPL, one_mul,
      ← mul_assoc (star (restr N U0)) (restr N U0), hU, one_mul]
    exact hPR
  have hM : (elimRun N U0).M = (elimSeq N).foldl elimMat U0 := by
    show ((elimSeq N).foldl elimStepApply ⟨U0, [], []⟩).M = _
    exact foldl_elim_M _ _
  have hlow : ∀ i j : Fin N, (j : ℕ) < (i : ℕ) →
      restr N (elimRun N U0).M i j = 0 := by
    intro i j hji
    show (elimRun N U0).M (i : ℕ) (j : ℕ) = 0
    rw [hM]
    exact elim_lower_zero N U0 (i : ℕ) (j : ℕ) i.isLt hji (by omega)
  obtain ⟨hoff, hdiagu⟩ :=
    upper_unitary_diagonal (restr N (elimRun N U0).M) hFu hlow
  have hdiag : restr N (elimRun N U0).M =
      diagFin N fun k => (elimRun N U0).M k k := by
    ext i j
    by_cases hij : i = j
    · rw [hij]
      show (elimRun N U0).M (j : ℕ) (j : ℕ) = Matrix.diagonal _ j j
      rw [Matrix.diagonal_apply_eq]
    · show restr N (elimRun N U0).M i j = Matrix.diagonal _ i j
      rw [Matrix.diagonal_apply_ne _ hij]
      exact hoff i j hij
  have hd0 : ∀ k, k < N →
      (elimRun N U0).M k k * star ((elimRun N U0).M k k) = 1 := by
    intro k hk
    exact hdiagu ⟨k, hk⟩
  have hLg' : ∀ r ∈ (elimRun N U0).lefts.reverse,
      r.1.unitary ∧ r.2.1 + 1 = r.2.2 ∧ r.2.2 < N := by
    intro r hr
    exact hLg r (List.mem_reverse.1 hr)
  obtain ⟨hmig, hmod⟩ := migCore_product (elimRun N U0).lefts.reverse
    (fun k => (elimRun N U0).M k k) hLg' hd0
  have hdfin : (migRunU (elimRun N U0).lefts fun k =>
      (elimRun N U0).M k k).d =
      (migCore (elimRun N U0).lefts.reverse fun k =>
        (elimRun N U0).M k k).1 :=
    congrArg MigState.d (migRunU_eq_migCore _ _)
  have hnl : (migRunU (elimRun N U0).lefts fun k =>
      (elimRun N U0).M k k).newLefts =
      (migCore (elimRun N U0).lefts.reverse fun k =>
        (elimRun N U0).M k k).2 :=
    congrArg MigState.newLefts (migRunU_eq_migCore _ _)
  rw [circuitMat_append]
  have hphases : circuitMat N ((List.range N).map fun idx =>
      GOp.zpow (Complex.arg ((migRunU (elimRun N U0).lefts fun k =>
        (elimRun N U0).M k k).d idx) / Real.pi) idx) =
      diagFin N (migRunU (elimRun N U0).lefts fun k =>
        (elimRun N U0).M k k).d := by
    rw [circuitMat_zpows N (fun idx =>
        Complex.arg ((migRunU (elimRun N U0).lefts fun k =>
          (elimRun N U0).M k k).d idx) / Real.pi) (List.range N)
      (fun q hq => List.mem_range.1 hq) (List.nodup_range N)]
    unfold diagFin
    refine congrArg Matrix.diagonal (funext fun k => ?_)
    rw [if_pos (List.mem_range.2 k.isLt)]
    have hzu : (migRunU (elimRun N U0).lefts fun k =>
        (elimRun N U0).M k k).d (k : ℕ) *
        star ((migRunU (elimRun N U0).lefts fun k =>
          (elimRun N U0).M k k).d (k : ℕ)) = 1 := by
      rw [hdfin]
      exact hmod (k : ℕ) k.isLt
    exact exp_pi_arg_div _ (unit_abs_of_mul_star hzu)
  rw [hphases,
    circuitMat_flatMap_merged N _ (merged_good N U0)]
  unfold mergedRotations
  rw [prodMerged_append, prodMerged_reverse, hdfin, hnl,
    ← mul_assoc, ← hmig, ← hdiag, elim_product]
  simp only [← mul_assoc]
  rw [prodAdj_reverse_mul_ProdL N _ hLg, one_mul, mul_assoc,
    ProdR_mul_conj N _ hRg, mul_one]

/-- C1: for every `N×N` unitary input `U` (in particular for every
`2 ≤ N ≤ 8`) and the position-indexed qubit handles, the decomposition
succeeds and the matrix composition of all emitted operations — the optional
per-rotation `phi` Z-phases, the `Ryxxy(−theta)` rotations, and the trailing
residual-phase Z rotations, composed in application order — equals `U` up to
a global phase (in exact arithmetic the phase is `1`). -/
theorem optimal_givens_roundtrip (N : ℕ) (U0 : CMat)
    (hU : star (restr N U0) * restr N U0 = 1) :
    ∃ ops : List (GOp ℕ),
      optimal_givens_decomposition (fun k => k) N U0 = .ok ops ∧
      ∃ γ : ℂ, Complex.abs γ = 1 ∧ circuitMat N ops = γ • restr N U0 := by
  refine ⟨_, optimal_givens_decomposition_eq_ok (fun k => k) N U0, 1,
    by simp, ?_⟩
  rw [one_smul]
  exact roundtrip_main N U0 hU

/-- The identity working matrix, the concrete unitary input used to
instantiate the round-trip law. -/
def idCMat : CMat := fun r c => if r = c then 1 else 0

/-- Concrete instantiation of the round-trip law at `N = 2` on the identity
input, with its unitarity hypothesis discharged by computation. -/
theorem optimal_givens_roundtrip_witness :
    (star (restr 2 idCMat) * restr 2 idCMat = 1) ∧
    ∃ ops : List (GOp ℕ),
      optimal_givens_decomposition (fun k => k) 2 idCMat = .ok ops ∧
      ∃ γ : ℂ, Complex.abs γ = 1 ∧ circuitMat 2 ops = γ • restr 2 idCMat := by
  have hid : star (restr 2 idCMat) * restr 2 idCMat = 1 := by
    ext i j
    fin_cases i <;> fin_cases j <;>
      simp [restr, idCMat, Matrix.mul_apply, Fin.sum_univ_two,
        Matrix.conjTranspose_apply, Matrix.one_apply]
  exact ⟨hid, optimal_givens_roundtrip 2 idCMat hid⟩

end

end OFSpec
